import Mathlib

/-!
Shallow embedding of the quorum-rs rules engine and search move chooser
(src/board.rs, src/ai.rs, src/hashes.rs), with theorems settling the
specification claims.

Rust `im::HashSet<Coord>` values are modelled as `Finset Coord`; where the
source iterates a hash set (an unspecified order), the model iterates the
lexicographically sorted list of elements.  Machine integers (`i32`) are
modelled as `Int` and `u64` hash words as `Nat` (XOR never overflows, so no
reduction mod 2^64 is needed).  A Rust panic (a failed `assert!`, `unwrap`,
or out-of-bounds index) is modelled as `Option.none` of an `Option`-valued
result.
-/

namespace Quorum

abbrev Coord := Int × Int

inductive Color where
  | Black : Color
  | White : Color
deriving DecidableEq, Repr

open Color

def Color.opponent : Color → Color
  | White => Black
  | Black => White

inductive Move where
  | Movement (color : Color) (active : Coord) (pivot : Coord) (conversions : List Coord) : Move
  | Placement (color : Color) (at' : Coord) : Move
deriving DecidableEq, Repr

/-- `Move::dest`: point reflection of `active` through `pivot` for a movement,
the target square for a placement. -/
def Move.dest : Move → Coord
  | .Movement _ active pivot _ =>
      (pivot.1 + (pivot.1 - active.1), pivot.2 + (pivot.2 - active.2))
  | .Placement _ a => a

/-- `Move::gap`.  The source asserts `active != pivot`; a violated assertion is
modelled as `none`. -/
def Move.gap : Move → Option Int
  | .Movement _ active pivot _ =>
      if active = pivot then none
      else some (max (|active.1 - pivot.1| - 1) (|active.2 - pivot.2| - 1))
  | .Placement _ _ => some 0

structure MoveDelta where
  white_minus : List Coord
  white_plus : List Coord
  black_minus : List Coord
  black_plus : List Coord
  white_reserve : Int
  black_reserve : Int
deriving Repr

def MoveDelta.new : MoveDelta :=
  { white_minus := [], white_plus := [], black_minus := [], black_plus := [],
    white_reserve := 0, black_reserve := 0 }

def MoveDelta.plusOf (d : MoveDelta) : Color → List Coord
  | White => d.white_plus
  | Black => d.black_plus

def MoveDelta.minusOf (d : MoveDelta) : Color → List Coord
  | White => d.white_minus
  | Black => d.black_minus

def MoveDelta.reserveOf (d : MoveDelta) : Color → Int
  | White => d.white_reserve
  | Black => d.black_reserve

/-- `plus_of_mut(color).push(c)` -/
def MoveDelta.pushPlus (d : MoveDelta) (color : Color) (c : Coord) : MoveDelta :=
  match color with
  | White => { d with white_plus := d.white_plus ++ [c] }
  | Black => { d with black_plus := d.black_plus ++ [c] }

/-- `minus_of_mut(color).push(c)` -/
def MoveDelta.pushMinus (d : MoveDelta) (color : Color) (c : Coord) : MoveDelta :=
  match color with
  | White => { d with white_minus := d.white_minus ++ [c] }
  | Black => { d with black_minus := d.black_minus ++ [c] }

/-- `*reserve_of_mut(color) += k` -/
def MoveDelta.addReserve (d : MoveDelta) (color : Color) (k : Int) : MoveDelta :=
  match color with
  | White => { d with white_reserve := d.white_reserve + k }
  | Black => { d with black_reserve := d.black_reserve + k }

inductive IllegalMoveReason where
  | ActiveNotOwned | PivotNotOwned | DestNotEmpty | DestNotInBounds
  | GapTooBig | EmptyReserve | TriedConvertCapture
deriving DecidableEq, Repr

structure Board where
  board_size : Int
  max_gap : Int
  white : Finset Coord
  black : Finset Coord
  white_reserve : Int
  black_reserve : Int
  whose_move : Color
  zobrist_hash : Nat
deriving DecidableEq

/- ### The hashing provider (src/hashes.rs, tables generated by build.rs) -/

def colorToNum : Color → Nat
  | White => 1
  | Black => 0

/-- Modelled from the spec: the `PIECE_HASHES` constant table produced by the
external hashing provider (one fixed 64-bit pseudorandom word per index; the
generated table itself is not part of `src/`).  Only fixedness matters to the
claims, so an arbitrary concrete injective table stands in for the stream. -/
def PIECE_HASHES (i : Nat) : Nat := i + 1

/-- Modelled from the spec: the `RESERVE_HASHES` constant table of the
external hashing provider. -/
def RESERVE_HASHES (i : Nat) : Nat := 1024 + i

/-- Modelled from the spec: the `TURN_HASHES` constant table of the external
hashing provider. -/
def TURN_HASHES (i : Nat) : Nat := 4096 + i

/-- `piece_hash` (src/hashes.rs): index `81*color + 9*x + y` into the piece
table.  The source asserts `0 <= coord`; the `usize` casts are modelled with
`Int.toNat`. -/
def piece_hash (color : Color) (c : Coord) : Nat :=
  PIECE_HASHES (81 * colorToNum color + 9 * c.1.toNat + c.2.toNat)

/-- `reserve_hash` (src/hashes.rs): index `20*color + reserve`. -/
def reserve_hash (color : Color) (reserve : Int) : Nat :=
  RESERVE_HASHES (20 * colorToNum color + reserve.toNat)

/-- `turn_hash` (src/hashes.rs). -/
def turn_hash (color : Color) : Nat := TURN_HASHES (colorToNum color)

/- ### Board accessors and geometry -/

namespace Board

def allPieces (b : Board) : Finset Coord := b.white ∪ b.black

def inBounds (b : Board) (c : Coord) : Prop :=
  0 ≤ c.1 ∧ c.1 < b.board_size ∧ 0 ≤ c.2 ∧ c.2 < b.board_size

instance (b : Board) (c : Coord) : Decidable (b.inBounds c) := by
  unfold inBounds; infer_instance

def piecesOf (b : Board) : Color → Finset Coord
  | White => b.white
  | Black => b.black

def reserveOf (b : Board) : Color → Int
  | White => b.white_reserve
  | Black => b.black_reserve

/-- The eight `(dx, dy)` offsets in the order generated by the nested
`for dx in -1..=1 { for dy in -1..=1 { ... } }` loops. -/
def neighborhoodOffsets : List Coord :=
  [(-1, -1), (-1, 0), (-1, 1), (0, -1), (0, 1), (1, -1), (1, 0), (1, 1)]

/-- `Board::neighborhood`: the in-bounds squares among the eight surrounding
squares. -/
def neighborhood (b : Board) (c : Coord) : List Coord :=
  (neighborhoodOffsets.map (fun d => (c.1 + d.1, c.2 + d.2))).filter
    (fun q => decide (b.inBounds q))

/-- `Board::orthogonal_neighborhood` (note: no bounds filter in the source). -/
def orthogonalNeighborhood (_b : Board) (c : Coord) : List Coord :=
  [(c.1 + 1, c.2), (c.1 - 1, c.2), (c.1, c.2 + 1), (c.1, c.2 - 1)]

/-- `Board::capturable_around`: opponent neighbors of `dest` that are fully
encircled (every neighbor occupied or equal to `dest`), with the source's
literal `!neighborhood(dest).contains(&active)` conjunct kept inside the
`all`. -/
def capturableAround (b : Board) (color : Color) (active dest : Coord) :
    List Coord :=
  (b.neighborhood dest).filter fun mc =>
    decide (mc ∈ b.piecesOf color.opponent) &&
      (b.neighborhood mc).all fun lib =>
        (decide (lib ∈ b.allPieces) || decide (lib = dest)) &&
          !decide (active ∈ b.neighborhood dest)

/-- `Board::convertible_around`: opponent neighbors of `dest` flanked by a
mover's piece diametrically opposite across `dest`. -/
def convertibleAround (b : Board) (color : Color) (active dest : Coord) :
    List Coord :=
  (b.neighborhood dest).filter fun n =>
    let flanker : Coord := ((n.1 - dest.1) * 2 + dest.1, (n.2 - dest.2) * 2 + dest.2)
    decide (flanker ≠ active) &&
      decide (n ∈ b.piecesOf color.opponent) &&
      decide (flanker ∈ b.piecesOf color) &&
      !decide (active ∈ b.capturableAround color active dest)

/-- `Board::valid_move`.  `some none` is the "legal" verdict, `some (some r)`
a rejection, and `none` a panic (only possible through `Move::gap`'s
assertion). -/
def validMove (b : Board) (m : Move) : Option (Option IllegalMoveReason) :=
  match m with
  | .Movement color active pivot conversions =>
      let pieces := if color = Black then b.black else b.white
      if active ∉ pieces then some (some .ActiveNotOwned)
      else if pivot ∉ pieces then some (some .PivotNotOwned)
      else
        let dest := Move.dest (.Movement color active pivot conversions)
        if dest ∈ b.allPieces then some (some .DestNotEmpty)
        else if ¬ b.inBounds dest then some (some .DestNotInBounds)
        else
          match Move.gap (.Movement color active pivot conversions) with
          | none => none
          | some g =>
              if g > b.max_gap then some (some .GapTooBig)
              else if conversions.any
                  (fun cv => decide (cv ∈ b.capturableAround color active dest)) then
                some (some .TriedConvertCapture)
              else some none
  | .Placement color at' =>
      if at' ∈ b.allPieces then some (some .DestNotEmpty)
      else if b.reserveOf color ≤ 0 then some (some .EmptyReserve)
      else some none

end Board

/- ### Iteration order for `im::HashSet`

The source iterates hash sets in an unspecified hash order; the model fixes
the iteration order to the lexicographic sort of the elements. -/

/-- Lexicographic order on coordinates, used as the model's iteration order. -/
def cle (a b : Coord) : Prop := a.1 < b.1 ∨ (a.1 = b.1 ∧ a.2 ≤ b.2)

instance : DecidableRel cle := fun a b => by unfold cle; infer_instance

theorem cle_total (a b : Coord) : cle a b ∨ cle b a := by unfold cle; omega

theorem cle_antisymm {a b : Coord} (h : cle a b) (h' : cle b a) : a = b := by
  rcases h with h | ⟨h1, h2⟩ <;> rcases h' with h' | ⟨h1', h2'⟩ <;>
    exact Prod.ext (by omega) (by omega)

theorem cle_trans {a b c : Coord} (h : cle a b) (h' : cle b c) : cle a c := by
  unfold cle at *; omega

/-- Insert a coordinate into a list before the first element it is
lexicographically below. -/
def insertSorted (c : Coord) : List Coord → List Coord
  | [] => [c]
  | x :: xs => if cle c x then c :: x :: xs else x :: insertSorted c xs

theorem insertSorted_left_comm (a b : Coord) (l : List Coord) :
    insertSorted a (insertSorted b l) = insertSorted b (insertSorted a l) := by
  induction l with
  | nil =>
      simp only [insertSorted]
      by_cases hab : cle a b <;> by_cases hba : cle b a
      · cases cle_antisymm hab hba
        rfl
      · simp [insertSorted, hab, hba]
      · simp [insertSorted, hab, hba]
      · rcases cle_total a b with h | h
        · exact absurd h hab
        · exact absurd h hba
  | cons x xs ih =>
      simp only [insertSorted]
      by_cases hbx : cle b x <;> by_cases hax : cle a x
      · simp only [insertSorted, hbx, hax, if_pos]
        by_cases hab : cle a b <;> by_cases hba : cle b a
        · cases cle_antisymm hab hba; rfl
        · simp [insertSorted, hab, hba, hax, hbx]
        · simp [insertSorted, hab, hba, hax, hbx]
        · rcases cle_total a b with h | h <;> simp_all
      · have hab : ¬ cle a b := fun h => hax (cle_trans h hbx)
        simp [insertSorted, hbx, hax, hab]
      · have hba : ¬ cle b a := fun h => hbx (cle_trans h hax)
        simp [insertSorted, hbx, hax, hba]
      · simp [insertSorted, hbx, hax, ih]

instance : LeftCommutative insertSorted := ⟨insertSorted_left_comm⟩

/-- The model's iteration order over a piece set: its elements listed in
lexicographic order. -/
def iterList (s : Finset Coord) : List Coord :=
  Multiset.foldr insertSorted [] s.val

theorem mem_insertSorted {x a : Coord} {l : List Coord} :
    x ∈ insertSorted a l ↔ x = a ∨ x ∈ l := by
  induction l with
  | nil => simp [insertSorted]
  | cons y ys ih =>
      by_cases h : cle a y
      · simp [insertSorted, h]
      · simp [insertSorted, h, ih]
        tauto

theorem mem_foldr_insertSorted {x : Coord} {t : Multiset Coord} :
    x ∈ Multiset.foldr insertSorted [] t ↔ x ∈ t := by
  induction t using Multiset.induction_on with
  | empty => simp
  | cons a u ih => simp [Multiset.foldr_cons, mem_insertSorted, ih]

theorem mem_iterList {x : Coord} {s : Finset Coord} :
    x ∈ iterList s ↔ x ∈ s := by
  rw [iterList, Finset.mem_def]
  exact mem_foldr_insertSorted

theorem length_insertSorted (a : Coord) (l : List Coord) :
    (insertSorted a l).length = l.length + 1 := by
  induction l with
  | nil => simp [insertSorted]
  | cons y ys ih => by_cases h : cle a y <;> simp [insertSorted, h, ih]

theorem length_iterList (s : Finset Coord) :
    (iterList s).length = s.card := by
  rw [iterList, Finset.card]
  induction s.val using Multiset.induction_on with
  | empty => simp
  | cons a t ih => simp [Multiset.foldr_cons, length_insertSorted, ih]

theorem nodup_insertSorted {a : Coord} {l : List Coord} (hl : l.Nodup)
    (ha : a ∉ l) : (insertSorted a l).Nodup := by
  induction l with
  | nil => simp [insertSorted]
  | cons y ys ih =>
      simp only [List.nodup_cons] at hl
      simp only [List.mem_cons, not_or] at ha
      by_cases h : cle a y <;>
        simp_all [insertSorted, h, mem_insertSorted, List.nodup_cons]
      tauto

theorem nodup_foldr_insertSorted {t : Multiset Coord} (h : t.Nodup) :
    (Multiset.foldr insertSorted [] t).Nodup := by
  induction t using Multiset.induction_on with
  | empty => simp
  | cons a u ih =>
      rw [Multiset.nodup_cons] at h
      rw [Multiset.foldr_cons]
      exact nodup_insertSorted (ih h.2)
        (fun hm => h.1 (mem_foldr_insertSorted.mp hm))

theorem nodup_iterList (s : Finset Coord) : (iterList s).Nodup :=
  nodup_foldr_insertSorted s.nodup

namespace Board

/-- `Board::from_position`: panics (`none`) when a piece is out of bounds;
note that it initializes `zobrist_hash` to `0` and both reserves to `0`. -/
def fromPosition (board_size : Int) (whose_move : Color)
    (white black : Finset Coord) : Option Board :=
  if white.filter
      (fun c => c.1 < 0 ∨ c.2 < 0 ∨ board_size ≤ c.1 ∨ board_size ≤ c.2) ≠ ∅ then
    none
  else if black.filter
      (fun c => c.1 < 0 ∨ c.2 < 0 ∨ board_size ≤ c.1 ∨ board_size ≤ c.2) ≠ ∅ then
    none
  else
    some { board_size := board_size, whose_move := whose_move, white := white,
           black := black, white_reserve := 0, black_reserve := 0,
           max_gap := 2, zobrist_hash := 0 }

/- ### Flood fill, connectivity, winner -/

/-- One `while !queued.is_empty()` loop of `Board::flood_fill`, with explicit
fuel.  Each pass moves the queued squares that are unvisited pieces of the
color into `visited` and queues their orthogonal neighbors.  Since every pass
that recurses with a nonempty queue has added at least one piece to `visited`,
`(piece count) + 2` fuel always reaches the source loop's fixpoint. -/
def floodLoop (b : Board) (color : Color) :
    Nat → Finset Coord → Finset Coord → Finset Coord
  | 0, visited, _ => visited
  | fuel + 1, visited, queued =>
      if queued = ∅ then visited
      else
        let newly := queued.filter (fun n => n ∈ b.piecesOf color ∧ n ∉ visited)
        b.floodLoop color fuel (visited ∪ newly)
          (newly.biUnion (fun n => (b.orthogonalNeighborhood n).toFinset))

/-- `Board::flood_fill`. -/
def floodFill (b : Board) (color : Color) (source : Coord) : Finset Coord :=
  b.floodLoop color ((b.piecesOf color).card + 2) {source}
    (b.orthogonalNeighborhood source).toFinset

/-- `Board::color_connected`.  The source unwraps `iter().next()` on the
color's piece set; for an empty set this panics (`none`). -/
def colorConnected (b : Board) (color : Color) : Option Bool :=
  match iterList (b.piecesOf color) with
  | [] => none
  | source :: _ =>
      some (decide ((b.floodFill color source).card = (b.piecesOf color).card))

/-- `Board::winner`: checks Black first, then White; propagates
`color_connected`'s panic. -/
def winner (b : Board) : Option (Option Color) :=
  match b.colorConnected Black with
  | none => none
  | some true => some (some Black)
  | some false =>
      match b.colorConnected White with
      | none => none
      | some true => some (some White)
      | some false => some none

/- ### Move delta, hash update, apply -/

/-- `Board::move_delta`. -/
def moveDelta (b : Board) (m : Move) : MoveDelta :=
  match m with
  | .Movement color active pivot conversions =>
      let dest := Move.dest (.Movement color active pivot conversions)
      let d0 := (MoveDelta.new.pushPlus color dest).pushMinus color active
      let convertibles := b.convertibleAround color active dest
      let d1 := (b.capturableAround color active dest).foldl
        (fun d oc =>
          if oc ∈ convertibles then d
          else (d.pushMinus color.opponent oc).addReserve color.opponent 1) d0
      convertibles.foldl
        (fun d oc =>
          let d := (d.pushMinus color.opponent oc).addReserve color.opponent 1
          if oc ∈ conversions then (d.pushPlus color oc).addReserve color (-1)
          else d) d1
  | .Placement color at' =>
      (MoveDelta.new.pushPlus color at').addReserve color (-1)

/-- `Board::apply_to_zobrist_hash`. -/
def applyToZobristHash (b : Board) (delta : MoveDelta) : Nat :=
  let h := b.zobrist_hash
  let h := delta.white_plus.foldl (fun h c => h ^^^ piece_hash White c) h
  let h := delta.white_minus.foldl (fun h c => h ^^^ piece_hash White c) h
  let h := delta.black_plus.foldl (fun h c => h ^^^ piece_hash Black c) h
  let h := delta.black_minus.foldl (fun h c => h ^^^ piece_hash Black c) h
  let h := h ^^^ reserve_hash White b.white_reserve
  let h := h ^^^ reserve_hash White (b.white_reserve + delta.white_reserve)
  let h := h ^^^ reserve_hash Black b.black_reserve
  let h := h ^^^ reserve_hash Black (b.black_reserve + delta.black_reserve)
  h ^^^ turn_hash b.whose_move ^^^ turn_hash b.whose_move.opponent

/-- `Board::apply`.  The source `assert_eq!(None, self.valid_move(mov))`
makes applying an illegal move (or a move on which `valid_move` itself
panics) a panic, modelled as `none`. -/
def apply (b : Board) (m : Move) : Option Board :=
  match b.validMove m with
  | some none =>
      let delta := b.moveDelta m
      some { b with
        zobrist_hash := b.applyToZobristHash delta
        white := delta.white_plus.foldl (fun s c => insert c s)
          (delta.white_minus.foldl (fun s c => s.erase c) b.white)
        black := delta.black_plus.foldl (fun s c => insert c s)
          (delta.black_minus.foldl (fun s c => s.erase c) b.black)
        white_reserve := b.white_reserve + delta.white_reserve
        black_reserve := b.black_reserve + delta.black_reserve
        whose_move := b.whose_move.opponent }
  | _ => none

end Board

/-- `Move::movement`: a movement with an empty conversion list. -/
def Move.movement (color : Color) (active pivot : Coord) : Move :=
  Move.Movement color active pivot []

/-- The hash of a board computed from scratch, following the spec's words:
XOR of the piece hash of every occupied square of each color, the reserve
hash of both colors' reserve levels, and the turn hash of the side to move.
This is the spec-side reference value that claim C1 compares the
incrementally maintained `zobrist_hash` field against. -/
def specHashFromScratch (b : Board) : Nat :=
  ((iterList b.white).foldl (fun h c => h ^^^ piece_hash Color.White c) 0) ^^^
  ((iterList b.black).foldl (fun h c => h ^^^ piece_hash Color.Black c) 0) ^^^
  reserve_hash Color.White b.white_reserve ^^^
  reserve_hash Color.Black b.black_reserve ^^^
  turn_hash b.whose_move

/-- `itertools`' `combinations(k)`: all `k`-element sublists in lexicographic
order of positions (empty when `k` exceeds the list length). -/
def combinations : Nat → List Coord → List (List Coord)
  | 0, _ => [[]]
  | _ + 1, [] => []
  | k + 1, x :: xs =>
      (combinations k xs).map (fun c => x :: c) ++ combinations (k + 1) xs

namespace Board

/-- `Board::all_coords`: every square, x-major. -/
def allCoords (b : Board) : List Coord :=
  (List.range b.board_size.toNat).flatMap
    (fun x => (List.range b.board_size.toNat).map (fun y => ((x : Int), (y : Int))))

/-- `Board::moves_of`.  The source panics when the mover's reserve is
negative and some legal base movement exists; `none` models that panic.
Emitted movements carry either the whole convertible set (when it fits in
the reserve) or every reserve-sized combination of it. -/
def movesOf (b : Board) (color : Color) : Option (List Move) :=
  let pieces := iterList (b.piecesOf color)
  if b.reserveOf color < 0 ∧
      pieces.any (fun active => pieces.any (fun pivot =>
        decide (b.validMove (Move.movement color active pivot) = some none))) then
    none
  else
    let mvmts := pieces.flatMap (fun active => pieces.flatMap (fun pivot =>
      if b.validMove (Move.movement color active pivot) = some none then
        let dest := Move.dest (Move.movement color active pivot)
        let conversions := b.convertibleAround color active dest
        if (conversions.length : Int) ≤ b.reserveOf color then
          [Move.Movement color active pivot conversions]
        else
          (combinations (b.reserveOf color).toNat conversions).map
            (fun comb => Move.Movement color active pivot comb)
      else []))
    let placements := (b.allCoords.filter
        (fun coord => decide (0 < b.reserveOf color) &&
          !decide (coord ∈ b.allPieces))).map
      (fun coord => Move.Placement color coord)
    some ((mvmts.filter (fun m => decide (b.validMove m = some none))) ++ placements)

/-- `Board::moves`. -/
def moves (b : Board) : Option (List Move) := b.movesOf b.whose_move

end Board

/- ### Transposition cache and search engine (src/ai.rs) -/

/-- `Valuation::MAX` = `i32::MAX`. -/
def valuationMax : Int := 2147483647

/-- `Valuation::MIN` = `i32::MIN`. -/
def valuationMin : Int := -2147483648

def TRANSPOSITION_TABLE_SIZE : Nat := 1048576

structure TranspositionTable where
  contents : List (List (Nat × Int))
deriving DecidableEq

/-- `TranspositionTable::new()`: 2^20 empty buckets. -/
def TranspositionTable.new : TranspositionTable :=
  ⟨List.replicate TRANSPOSITION_TABLE_SIZE []⟩

/-- The initial value of the process-wide `TRANSPOSITION_TABLE` static:
`TranspositionTable { contents: vec![] }`, i.e. zero buckets. -/
def TRANSPOSITION_TABLE_INIT : TranspositionTable := ⟨[]⟩

/-- The bucket index used by both `add` and `get`. -/
def TranspositionTable.bucketIndex (hash : Nat) : Nat :=
  hash % TRANSPOSITION_TABLE_SIZE

/-- `TranspositionTable::add`: append to the bucket at
`hash % TRANSPOSITION_TABLE_SIZE`; an out-of-bounds index panics (`none`). -/
def TranspositionTable.add (t : TranspositionTable) (b : Board) (value : Int) :
    Option TranspositionTable :=
  let i := TranspositionTable.bucketIndex b.zobrist_hash
  if h : i < t.contents.length then
    some ⟨t.contents.set i (t.contents[i] ++ [(b.zobrist_hash, value)])⟩
  else none

/-- `TranspositionTable::get`: scan the bucket at
`hash % TRANSPOSITION_TABLE_SIZE` for a matching full hash; an out-of-bounds
index panics (`none`). -/
def TranspositionTable.get (t : TranspositionTable) (b : Board) :
    Option (Option Int) :=
  let i := TranspositionTable.bucketIndex b.zobrist_hash
  if h : i < t.contents.length then
    some ((t.contents[i].find? (fun e => e.1 == b.zobrist_hash)).map (fun e => e.2))
  else none

/-- `PieceCountHeuristic`. -/
def pieceCountHeuristic (b : Board) : Int :=
  (b.white.card : Int) - (b.black.card : Int)

/-- Stable insertion of a `(key, move)` pair: before the first strictly
greater key, after equal keys — the unique stable ascending order, matching
`sort_by_cached_key`. -/
def insertKeyed (p : Int × Move) : List (Int × Move) → List (Int × Move)
  | [] => [p]
  | q :: qs => if p.1 ≤ q.1 then p :: q :: qs else q :: insertKeyed p qs

/-- Stable insertion sort by key, matching `sort_by_cached_key`'s stable
ascending sort. -/
def sortKeyed : List (Int × Move) → List (Int × Move)
  | [] => []
  | p :: ps => insertKeyed p (sortKeyed ps)

/-- The maximizer's loop over sorted moves: running `value`, the
`value >= beta` cutoff, then `alpha = max(alpha, value)`.  `evalChild` is the
recursive evaluation at one less depth; any panic (`none`) propagates. -/
def searchMax
    (evalChild : Board → Int → Int → TranspositionTable →
      Option (Int × TranspositionTable))
    (b : Board) :
    List Move → Int → Int → Int → TranspositionTable →
      Option (Int × TranspositionTable)
  | [], _alpha, _beta, value, t => some (value, t)
  | mov :: rest, alpha, beta, value, t =>
      match b.apply mov with
      | none => none
      | some child =>
          match evalChild child alpha beta t with
          | none => none
          | some (v, t') =>
              let value' := max value v
              if value' ≥ beta then some (value', t')
              else searchMax evalChild b rest (max alpha value') beta value' t'

/-- The minimizer's loop: running `value`, the `value <= alpha` cutoff, then
`beta = min(beta, value)`. -/
def searchMin
    (evalChild : Board → Int → Int → TranspositionTable →
      Option (Int × TranspositionTable))
    (b : Board) :
    List Move → Int → Int → Int → TranspositionTable →
      Option (Int × TranspositionTable)
  | [], _alpha, _beta, value, t => some (value, t)
  | mov :: rest, alpha, beta, value, t =>
      match b.apply mov with
      | none => none
      | some child =>
          match evalChild child alpha beta t with
          | none => none
          | some (v, t') =>
              let value' := min value v
              if value' ≤ alpha then some (value', t')
              else searchMin evalChild b rest alpha (min beta value') value' t'

/-- The body of `minimax_eval` at positive depth: cache probe, winner check,
then the per-color ordered alpha-beta loop followed by the unconditional
`add`.  `recur` is the evaluation at one less depth. -/
def minimaxStep
    (recur : Board → Int → Int → TranspositionTable →
      Option (Int × TranspositionTable))
    (b : Board) (alpha beta : Int) (t : TranspositionTable) :
    Option (Int × TranspositionTable) :=
  match t.get b with
  | none => none
  | some (some value) => some (value, t)
  | some none =>
      match b.winner with
      | none => none
      | some (some Color.White) => some (valuationMax, t)
      | some (some Color.Black) => some (valuationMin, t)
      | some none =>
          match b.moves with
          | none => none
          | some ms =>
              match b.whose_move with
              | Color.White =>
                  match ms.mapM (fun m => (b.apply m).map
                      (fun c => (pieceCountHeuristic c, m))) with
                  | none => none
                  | some keyed =>
                      let sorted := (sortKeyed keyed).map (fun p => p.2)
                      match searchMax recur b sorted alpha beta valuationMin t with
                      | none => none
                      | some (value, t') =>
                          match t'.add b value with
                          | none => none
                          | some t'' => some (value, t'')
              | Color.Black =>
                  match ms.mapM (fun m => (b.apply m).map
                      (fun c => (-pieceCountHeuristic c, m))) with
                  | none => none
                  | some keyed =>
                      let sorted := (sortKeyed keyed).map (fun p => p.2)
                      match searchMin recur b sorted alpha beta valuationMax t with
                      | none => none
                      | some (value, t') =>
                          match t'.add b value with
                          | none => none
                          | some t'' => some (value, t'')

/-- `minimax_eval`, by structural recursion on the depth.  At depth 0 the
source probes the cache and then returns the heuristic's static evaluation;
at positive depth `minimaxStep` runs with the evaluation at one less depth. -/
def minimaxLevel (heuristic : Board → Int) :
    Nat → Board → Int → Int → TranspositionTable →
      Option (Int × TranspositionTable)
  | 0 => fun b _alpha _beta t =>
      match t.get b with
      | none => none
      | some (some value) => some (value, t)
      | some none => some (heuristic b, t)
  | d + 1 => fun b alpha beta t =>
      minimaxStep (minimaxLevel heuristic d) b alpha beta t

/-- `minimax_eval` with the cache state passed explicitly.  The result pairs
the valuation with the updated cache; `none` is a panic. -/
def minimax_eval (b : Board) (depth : Nat) (heuristic : Board → Int)
    (alpha beta : Int) (t : TranspositionTable) :
    Option (Int × TranspositionTable) :=
  minimaxLevel heuristic depth b alpha beta t

/-- The root-key computation of `best_move`: evaluate every root child with a
fresh full window, threading the shared cache left to right in enumeration
order (exactly the order `max_by_key`/`min_by_key` force the keys). -/
def evalKeysThread (heuristic : Board → Int) (depth : Nat) (b : Board) :
    List Move → TranspositionTable →
      Option (List (Move × Int) × TranspositionTable)
  | [], t => some ([], t)
  | m :: rest, t =>
      match b.apply m with
      | none => none
      | some child =>
          match minimaxLevel heuristic depth child valuationMin valuationMax t with
          | none => none
          | some (v, t') =>
              match evalKeysThread heuristic depth b rest t' with
              | none => none
              | some (ps, t'') => some ((m, v) :: ps, t'')

/-- Rust `Iterator::max_by_key`'s fold: keep the accumulator only when its
key is strictly greater, so the LAST maximal element wins. -/
def maxByKeyLastGo (cur : Move × Int) : List (Move × Int) → Move × Int
  | [] => cur
  | p :: ps => maxByKeyLastGo (if cur.2 > p.2 then cur else p) ps

/-- Rust `Iterator::max_by_key`: `none` on empty, otherwise the last element
with the maximal key. -/
def maxByKeyLast : List (Move × Int) → Option Move
  | [] => none
  | p :: ps => some (maxByKeyLastGo p ps).1

/-- Rust `Iterator::min_by_key`'s fold: replace the accumulator only when
the new key is strictly smaller, so the FIRST minimal element wins. -/
def minByKeyFirstGo (cur : Move × Int) : List (Move × Int) → Move × Int
  | [] => cur
  | p :: ps => minByKeyFirstGo (if cur.2 > p.2 then p else cur) ps

/-- Rust `Iterator::min_by_key`: `none` on empty, otherwise the first element
with the minimal key. -/
def minByKeyFirst : List (Move × Int) → Option Move
  | [] => none
  | p :: ps => some (minByKeyFirstGo p ps).1

/-- `best_move`: evaluate each root child at `depth - 1` with a fresh full
window, then `max_by_key` (White) or `min_by_key` (Black).  `depth - 1` is
`Nat` subtraction; the source's `usize` underflow at `depth = 0` is outside
the theorems' `1 ≤ depth` hypotheses. -/
def best_move (b : Board) (depth : Nat) (heuristic : Board → Int)
    (t : TranspositionTable) :
    Option (Option Move × TranspositionTable) :=
  match b.moves with
  | none => none
  | some ms =>
      match evalKeysThread heuristic (depth - 1) b ms t with
      | none => none
      | some (ps, t') =>
          match b.whose_move with
          | Color.White => some (maxByKeyLast ps, t')
          | Color.Black => some (minByKeyFirst ps, t')

/- ### Concrete boards used by counterexamples and witnesses -/

/-- The board of the `test_capturables` scenario (claim C8). -/
def c8Board : Board :=
  { board_size := 9, max_gap := 2,
    white := {((2 : Int), (2 : Int)), (2, 3), (3, 2), (4, 1)},
    black := {((1 : Int), (1 : Int)), (1, 2), (1, 3), (2, 1), (3, 1), (3, 4),
      (3, 5), (4, 2), (4, 3)},
    white_reserve := 0, black_reserve := 0, whose_move := Color.White,
    zobrist_hash := 0 }

/-- A small board: White owns (0,0) and (1,0), Black owns (4,4), both
reserves are 0, White to move, hash 0 (as `from_position` would set it). -/
def c2Board : Board :=
  { board_size := 9, max_gap := 2,
    white := {((0 : Int), (0 : Int)), (1, 0)},
    black := {((4 : Int), (4 : Int))},
    white_reserve := 0, black_reserve := 0, whose_move := Color.White,
    zobrist_hash := 0 }

/-- `c2Board` with its hash field set to the from-scratch hash of the
position (the hash-consistent variant). -/
def c1Board : Board := { c2Board with zobrist_hash := 4149 }

/-- `c2Board` with hash 5, used to exercise a cache hit. -/
def c7Board : Board := { c2Board with zobrist_hash := 5 }

/-- The table `TranspositionTable::new().add(c7Board, 42)` produces. -/
def c7Table : TranspositionTable :=
  ⟨(List.replicate TRANSPOSITION_TABLE_SIZE []).set 5 [(5, 42)]⟩

/-- A board on which neither color is connected: White owns (0,0) and (2,0),
Black owns (4,2) and (4,4). -/
def c6Board : Board :=
  { board_size := 9, max_gap := 2,
    white := {((0 : Int), (0 : Int)), (2, 0)},
    black := {((4 : Int), (2 : Int)), (4, 4)},
    white_reserve := 0, black_reserve := 0, whose_move := Color.White,
    zobrist_hash := 0 }

/-- A board with exactly two legal White moves, both yielding children with
the same piece-count evaluation. -/
def c5Board : Board :=
  { board_size := 9, max_gap := 2,
    white := {((0 : Int), (0 : Int)), (0, 1), (1, 0)},
    black := {((5 : Int), (5 : Int))},
    white_reserve := 0, black_reserve := 0, whose_move := Color.White,
    zobrist_hash := 0 }

/-- A board with no pieces at all. -/
def emptyBoard : Board :=
  { board_size := 9, max_gap := 2, white := ∅, black := ∅,
    white_reserve := 0, black_reserve := 0, whose_move := Color.White,
    zobrist_hash := 0 }

/- ### Helper lemmas about the model -/

theorem piecesOf_ite (b : Board) (color : Color) :
    (if color = Black then b.black else b.white) = b.piecesOf color := by
  cases color <;> rfl

theorem mem_allPieces_of_mem_piecesOf {b : Board} {color : Color} {x : Coord}
    (h : x ∈ b.piecesOf color) : x ∈ b.allPieces := by
  cases color <;> simp [Board.allPieces, Board.piecesOf] at * <;> tauto

theorem iterList_eq_nil_iff {s : Finset Coord} : iterList s = [] ↔ s = ∅ := by
  rw [← List.length_eq_zero, length_iterList, Finset.card_eq_zero]

theorem colorConnected_isSome {b : Board} {color : Color}
    (h : (b.piecesOf color).Nonempty) : ∃ v, b.colorConnected color = some v := by
  rw [Board.colorConnected]
  rcases hl : iterList (b.piecesOf color) with _ | ⟨x, xs⟩
  · rw [iterList_eq_nil_iff] at hl
    rw [hl] at h
    exact absurd h (by simp)
  · exact ⟨_, rfl⟩

theorem colorConnected_empty {b : Board} {color : Color}
    (h : b.piecesOf color = ∅) : b.colorConnected color = none := by
  rw [Board.colorConnected]
  rcases hl : iterList (b.piecesOf color) with _ | ⟨x, xs⟩
  · rfl
  · have : x ∈ iterList (b.piecesOf color) := by rw [hl]; exact List.mem_cons_self x xs
    rw [mem_iterList, h] at this
    exact absurd this (by simp)

/- ### Claim C8 -/

/-- C8: on the 9x9 board with black pieces at (1,1),(1,2),(1,3),(2,1),(3,1),
(3,4),(3,5),(4,2),(4,3) and white pieces at (2,2),(2,3),(3,2),(4,1), the set
produced by `capturable_around(Black, active=(3,5), dest=(3,3))` is exactly
{(2,2),(3,2)}. -/
theorem claim_C8_capturable_scenario :
    ∀ c : Coord, c ∈ c8Board.capturableAround Color.Black (3, 5) (3, 3) ↔
      (c = (2, 2) ∨ c = (3, 2)) := by
  intro c
  have h : c8Board.capturableAround Color.Black (3, 5) (3, 3) = [(2, 2), (3, 2)] := by
    decide
  rw [h]
  simp

/- ### Claim C9 -/

/-- C9: a Movement whose active and pivot squares coincide and are owned by
the mover is rejected as `DestNotEmpty` (the destination is the occupied
pivot square itself), so `valid_move` returns before evaluating `gap`, whose
`active != pivot` assertion (the paired `gap` conjunct) is unreachable from
`valid_move`. -/
theorem claim_C9_active_eq_pivot (b : Board) (color : Color) (active : Coord)
    (conversions : List Coord) (h : active ∈ b.piecesOf color) :
    b.validMove (.Movement color active active conversions) =
      some (some .DestNotEmpty) ∧
    Move.gap (.Movement color active active conversions) = none := by
  constructor
  · have hdest : Move.dest (.Movement color active active conversions) = active := by
      simp [Move.dest]
    have hpieces := piecesOf_ite b color
    rw [Board.validMove]
    simp only [hpieces, hdest]
    rw [if_neg (by simpa using h), if_neg (by simpa using h),
      if_pos (mem_allPieces_of_mem_piecesOf h)]
  · simp [Move.gap]

/-- C9 witness: on `c2Board`, the White movement with active = pivot = (0,0)
is rejected as `DestNotEmpty` without panicking. -/
theorem claim_C9_witness :
    c2Board.validMove (.Movement Color.White (0, 0) (0, 0) []) =
      some (some .DestNotEmpty) ∧
    Move.gap (.Movement Color.White ((0 : Int), (0 : Int)) (0, 0) []) = none :=
  claim_C9_active_eq_pivot c2Board Color.White (0, 0) [] (by decide)

/- ### Claim C3 -/

/-- C3 counterexample: the process-wide `TRANSPOSITION_TABLE` static is
initialized with `contents: vec![]` — zero buckets, not 2^20 — and on that
initial value the bucket index is out of bounds for every hash, so `get` and
`add` panic (here at hash 0). -/
theorem claim_C3_counterexample :
    TRANSPOSITION_TABLE_INIT.contents.length = 0 ∧
    ¬ (TranspositionTable.bucketIndex c2Board.zobrist_hash <
        TRANSPOSITION_TABLE_INIT.contents.length) ∧
    TRANSPOSITION_TABLE_INIT.get c2Board = none ∧
    TRANSPOSITION_TABLE_INIT.add c2Board 0 = none := by
  refine ⟨rfl, by decide, rfl, rfl⟩

/-- C3 amended: every table whose bucket vector has the fixed size 2^20 — in
particular any table built by `TranspositionTable::new`, which the shared
static must be replaced with before use — has the bucket index
`hash % 2^20` in bounds for every hash, and `get`/`add` on it never panic;
but the shared static's initial value itself has zero buckets (see the
counterexample). -/
theorem claim_C3_bucket_bounds (b : Board) (t : TranspositionTable)
    (h : t.contents.length = TRANSPOSITION_TABLE_SIZE) :
    TranspositionTable.bucketIndex b.zobrist_hash < t.contents.length ∧
    TranspositionTable.new.contents.length = TRANSPOSITION_TABLE_SIZE ∧
    (∃ r, t.get b = some r) ∧
    (∀ v : Int, ∃ t2, t.add b v = some t2) := by
  have hlt : TranspositionTable.bucketIndex b.zobrist_hash < t.contents.length := by
    rw [h]
    exact Nat.mod_lt _ (by decide)
  refine ⟨hlt, by simp [TranspositionTable.new], ?_, ?_⟩
  · rw [TranspositionTable.get, dif_pos hlt]
    exact ⟨_, rfl⟩
  · intro v
    rw [TranspositionTable.add, dif_pos hlt]
    exact ⟨_, rfl⟩

/-- C3 witness: instantiating the bounds theorem at `TranspositionTable.new`
and `c2Board`. -/
theorem claim_C3_witness :
    TranspositionTable.bucketIndex c2Board.zobrist_hash <
      TranspositionTable.new.contents.length ∧
    TranspositionTable.new.contents.length = TRANSPOSITION_TABLE_SIZE ∧
    (∃ r, TranspositionTable.new.get c2Board = some r) ∧
    (∀ v : Int, ∃ t2, TranspositionTable.new.add c2Board v = some t2) :=
  claim_C3_bucket_bounds c2Board TranspositionTable.new
    (by simp [TranspositionTable.new])

/- ### Claim C10 -/

/-- C10: `winner` and `color_connected` are partial at the public interface:
on a board where both colors own at least one square, `winner()` returns
a value (never reaching `color_connected`'s unwrap of `iter().next()`);
`color_connected(c)` with an empty piece set for `c` reaches that failure
(`none`), and `winner()` on a board with no Black pieces does too (Black is
the first color it queries). -/
theorem claim_C10_winner_totality (b : Board) :
    (b.black.Nonempty → b.white.Nonempty → ∃ r, b.winner = some r) ∧
    (∀ color, b.piecesOf color = ∅ → b.colorConnected color = none) ∧
    (b.black = ∅ → b.winner = none) := by
  refine ⟨?_, fun color h => colorConnected_empty h, ?_⟩
  · intro hb hw
    obtain ⟨v, hv⟩ := @colorConnected_isSome b Black hb
    rw [Board.winner, hv]
    cases v
    · obtain ⟨v', hv'⟩ := @colorConnected_isSome b White hw
      rw [hv']
      cases v' <;> exact ⟨_, rfl⟩
    · exact ⟨_, rfl⟩
  · intro hb
    rw [Board.winner, @colorConnected_empty b Black (by simpa [Board.piecesOf] using hb)]

/-- C10 witness: on `c8Board` (both colors nonempty) `winner` returns; on
`emptyBoard`, `color_connected` and `winner` reach the unwrap failure. -/
theorem claim_C10_witness :
    (∃ r, c8Board.winner = some r) ∧
    emptyBoard.colorConnected Color.Black = none ∧
    emptyBoard.winner = none :=
  ⟨(claim_C10_winner_totality c8Board).1 (by decide) (by decide),
   (claim_C10_winner_totality emptyBoard).2.1 Color.Black (by decide),
   (claim_C10_winner_totality emptyBoard).2.2 (by decide)⟩

/- ### Claim C2, counterexample -/

/-- C2 counterexample: `valid_move` never consults the mover's reserve on a
Movement.  On `c2Board` (White reserve 0) the movement (0,0) over (1,0) with
the one-element conversion list [(7,7)] is reported legal even though the
list is larger than the reserve. -/
theorem claim_C2_counterexample :
    c2Board.validMove (.Movement Color.White (0, 0) (1, 0) [(7, 7)]) = some none ∧
    c2Board.reserveOf Color.White <
      (([((7 : Int), (7 : Int))] : List Coord).length : Int) := by
  constructor
  · decide
  · decide

/- ### Claim C2, amended -/

theorem combinations_length {k : Nat} {xs : List Coord} {l : List Coord}
    (h : l ∈ combinations k xs) : l.length = k := by
  induction xs generalizing k l with
  | nil =>
      cases k with
      | zero => simp [combinations] at h; simp [h]
      | succ k => simp [combinations] at h
  | cons x xs ih =>
      cases k with
      | zero => simp [combinations] at h; simp [h]
      | succ k =>
          rw [combinations, List.mem_append] at h
          rcases h with h | h
          · rcases List.mem_map.mp h with ⟨c, hc, rfl⟩
            simp [ih hc]
          · exact ih h

/-- C2 amended: `valid_move` itself never weighs the conversion list against
the mover's reserve (see the counterexample); the bound is enforced by
`moves_of`, which only ever emits Movements carrying at most reserve-many
conversions (the whole convertible set when it fits, otherwise exactly
reserve-sized combinations). -/
theorem claim_C2_moves_conversions_bound (b : Board) (color : Color)
    (ms : List Move) (hms : b.movesOf color = some ms)
    (c : Color) (a p : Coord) (conv : List Coord)
    (hm : Move.Movement c a p conv ∈ ms) :
    (conv.length : Int) ≤ b.reserveOf color := by
  rw [Board.movesOf] at hms
  split at hms
  · exact absurd hms (by simp)
  · rename_i hnopanic
    rw [Option.some_inj] at hms
    rw [← hms, List.mem_append] at hm
    rcases hm with hm | hm
    · rw [List.mem_filter] at hm
      rcases List.mem_flatMap.mp hm.1 with ⟨active, hactive, hin⟩
      rcases List.mem_flatMap.mp hin with ⟨pivot, hpivot, hgen⟩
      by_cases hlegal :
          b.validMove (Move.movement color active pivot) = some none
      · rw [if_pos hlegal] at hgen
        have hres : ¬ b.reserveOf color < 0 := by
          intro hneg
          exact hnopanic ⟨hneg, List.any_eq_true.mpr ⟨active, hactive,
            List.any_eq_true.mpr ⟨pivot, hpivot, by simp [hlegal]⟩⟩⟩
        by_cases hfits :
            ((b.convertibleAround color active
              (Move.dest (Move.movement color active pivot))).length : Int) ≤
              b.reserveOf color
        · rw [if_pos hfits] at hgen
          rw [List.mem_singleton] at hgen
          cases hgen
          exact hfits
        · rw [if_neg hfits] at hgen
          rcases List.mem_map.mp hgen with ⟨comb, hcomb, heq⟩
          cases heq
          rw [combinations_length hcomb]
          omega
      · rw [if_neg hlegal] at hgen
        exact absurd hgen (by simp)
    · rcases List.mem_map.mp hm with ⟨coord, _, heq⟩
      exact absurd heq (by simp)

/-- C2 witness: `moves_of` on `c2Board` emits exactly one Movement, whose
empty conversion list is within White's zero reserve. -/
theorem claim_C2_witness :
    (([] : List Coord).length : Int) ≤ c2Board.reserveOf Color.White :=
  claim_C2_moves_conversions_bound c2Board Color.White
    [Move.Movement Color.White (0, 0) (1, 0) []] (by decide)
    Color.White (0, 0) (1, 0) [] (by decide)

/- ### Claim C1, counterexample -/

/-- C1 counterexample: the claim quantifies over every board, but
`from_position` initializes `zobrist_hash` to 0 rather than to the
from-scratch hash, so hash-consistency fails on boards built from it.  On
`c2Board` (hash field 0, exactly as `from_position` leaves it) the legal
movement (0,0) over (1,0) produces a board whose stored hash differs from
the hash computed from scratch. -/
theorem claim_C1_counterexample :
    c2Board.validMove (Move.Movement Color.White (0, 0) (1, 0) []) = some none ∧
    (c2Board.apply (Move.Movement Color.White (0, 0) (1, 0) [])).map
      (fun b2 => (b2.zobrist_hash, specHashFromScratch b2)) = some (55, 4098) ∧
    (55 : Nat) ≠ 4098 := by
  refine ⟨by decide, by decide, by decide⟩

/- ### Transposition-table lemmas -/

theorem new_contents_length :
    TranspositionTable.new.contents.length = TRANSPOSITION_TABLE_SIZE := by
  simp [TranspositionTable.new]

theorem bucketIndex_lt_size (hash : Nat) :
    TranspositionTable.bucketIndex hash < TRANSPOSITION_TABLE_SIZE :=
  Nat.mod_lt _ (by decide)

/-- `get` on a fresh table always reports a miss. -/
theorem get_new (b : Board) : TranspositionTable.new.get b = some none := by
  rw [TranspositionTable.get]
  rw [dif_pos (by rw [new_contents_length]; exact bucketIndex_lt_size _)]
  simp [TranspositionTable.new]

/-- Depth 0 with a cache hit returns the cached value unchanged. -/
theorem minimax_depth0_hit (b : Board) (heuristic : Board → Int)
    (alpha beta : Int) (t : TranspositionTable) (v : Int)
    (hhit : t.get b = some (some v)) :
    minimax_eval b 0 heuristic alpha beta t = some (v, t) := by
  simp only [minimax_eval, minimaxLevel]
  rw [hhit]

/-- Depth 0 with a cache miss returns the heuristic value, cache unchanged. -/
theorem minimax_depth0_miss (b : Board) (heuristic : Board → Int)
    (alpha beta : Int) (t : TranspositionTable)
    (hmiss : t.get b = some none) :
    minimax_eval b 0 heuristic alpha beta t = some (heuristic b, t) := by
  simp only [minimax_eval, minimaxLevel]
  rw [hmiss]

/- ### Claim C7 -/

/-- C7 counterexample: the cache probe precedes the `depth == 0` branch, so
with a cache state holding an entry for the board's hash, `minimax_eval` at
depth 0 returns the cached value (42), not the heuristic's evaluation (1).
`c7Table` is exactly what `TranspositionTable::new().add(c7Board, 42)`
builds. -/
theorem claim_C7_counterexample :
    TranspositionTable.new.add c7Board 42 = some c7Table ∧
    minimax_eval c7Board 0 pieceCountHeuristic valuationMin valuationMax c7Table =
      some (42, c7Table) ∧
    pieceCountHeuristic c7Board = 1 ∧ (42 : Int) ≠ 1 := by
  have hidx : TranspositionTable.bucketIndex c7Board.zobrist_hash = 5 := by decide
  have hlen5 : (5 : Nat) < TranspositionTable.new.contents.length := by
    rw [new_contents_length]; decide
  have hlenc : (5 : Nat) < c7Table.contents.length := by
    rw [c7Table, List.length_set, List.length_replicate]; decide
  refine ⟨?_, ?_, by decide, by decide⟩
  · rw [TranspositionTable.add]
    rw [hidx, dif_pos hlen5, show c7Board.zobrist_hash = 5 from rfl]
    simp [TranspositionTable.new, c7Table]
  · have hget : c7Table.get c7Board = some (some 42) := by
      rw [TranspositionTable.get, hidx, dif_pos hlenc]
      simp only [c7Table]
      rw [List.getElem_set_self
        (by rw [List.length_set, List.length_replicate]; decide)]
      decide
    exact minimax_depth0_hit _ _ _ _ _ _ hget

/-- C7 amended: for every board, heuristic, and window, `minimax_eval` at
depth 0 returns exactly the heuristic's static evaluation — provided the
cache state has no entry matching the board's hash (the probe comes first
and wins otherwise, see the counterexample). -/
theorem claim_C7_depth0_heuristic (b : Board) (heuristic : Board → Int)
    (alpha beta : Int) (t : TranspositionTable)
    (hmiss : t.get b = some none) :
    minimax_eval b 0 heuristic alpha beta t = some (heuristic b, t) :=
  minimax_depth0_miss b heuristic alpha beta t hmiss

/-- C7 witness: on the fresh table (a miss for every board), depth 0 returns
the piece-count heuristic of `c2Board`. -/
theorem claim_C7_witness :
    minimax_eval c2Board 0 pieceCountHeuristic valuationMin valuationMax
      TranspositionTable.new = some (pieceCountHeuristic c2Board,
        TranspositionTable.new) :=
  claim_C7_depth0_heuristic c2Board pieceCountHeuristic valuationMin
    valuationMax TranspositionTable.new (get_new c2Board)

/- ### Claim C6 -/

/-- C6 counterexample: `minimax_eval` at depth 0 (a cache miss) returns the
heuristic value with the cache unchanged — the returned table still has no
entry for the board — refuting the claim that every return path (including
depth 0, cache hits, and won positions) inserts before returning. -/
theorem claim_C6_counterexample :
    minimax_eval c6Board 0 pieceCountHeuristic valuationMin valuationMax
      TranspositionTable.new =
      some (pieceCountHeuristic c6Board, TranspositionTable.new) ∧
    TranspositionTable.new.get c6Board = some none := by
  constructor
  · exact minimax_depth0_miss _ _ _ _ _ (get_new c6Board)
  · exact get_new c6Board

/-- A 38-bucket cache value, large enough for the bucket indices that arise
in the C6 witness computation. -/
def c6SmallTable : TranspositionTable := ⟨List.replicate 38 []⟩

/-- C6 amended: only the recursive minimax paths insert into the cache.
Whenever a positive-depth evaluation that misses the cache and finds no
winner returns a value at all, the cache it returns is exactly an `add` of
the returned value for the evaluated board into the cache state left by the
alpha-beta loop; the cache-hit, depth-0, and won-position paths return with
the cache untouched (see the counterexample). -/
theorem claim_C6_insert_on_recursive_path (b : Board) (d : Nat)
    (heuristic : Board → Int) (alpha beta : Int) (t : TranspositionTable)
    (r : Int × TranspositionTable)
    (hmiss : t.get b = some none)
    (hwin : b.winner = some none)
    (hres : minimax_eval b (d + 1) heuristic alpha beta t = some r) :
    ∃ t2 : TranspositionTable, t2.add b r.1 = some r.2 := by
  simp only [minimax_eval, minimaxLevel, minimaxStep, hmiss, hwin] at hres
  split at hres
  · exact absurd hres (by simp)
  · cases hcw : b.whose_move
    all_goals simp only [hcw] at hres
    all_goals split at hres
    all_goals try exact absurd hres (by simp)
    all_goals rename_i keyed hkeyed
    all_goals split at hres
    all_goals try exact absurd hres (by simp)
    all_goals rename_i value t2 hsearch
    all_goals split at hres
    all_goals
      first
        | (injection hres with hr
           subst hr
           rename_i hadd
           exact ⟨_, hadd⟩)
        | injection hres

/-- C6 witness: a depth-1 evaluation of `c6Board` (cache miss, no winner)
returns value 0 and a cache equal to inserting (hash, 0) into the loop's
cache state. -/
theorem claim_C6_witness :
    ∃ t2 : TranspositionTable, t2.add c6Board
        ((0 : Int),
          (⟨(List.replicate 38 ([] : List (Nat × Int))).set 0 [(0, 0)]⟩ :
            TranspositionTable)).1 =
      some ((0 : Int),
          (⟨(List.replicate 38 ([] : List (Nat × Int))).set 0 [(0, 0)]⟩ :
            TranspositionTable)).2 :=
  claim_C6_insert_on_recursive_path c6Board 0 pieceCountHeuristic
    valuationMin valuationMax c6SmallTable
    (0, ⟨(List.replicate 38 ([] : List (Nat × Int))).set 0 [(0, 0)]⟩)
    (by decide) (by decide) (by decide)

/- ### Fold lemmas for piece-set updates -/

theorem mem_foldl_erase (l : List Coord) (s : Finset Coord) (x : Coord) :
    x ∈ l.foldl (fun s c => s.erase c) s ↔ x ∈ s ∧ x ∉ l := by
  induction l generalizing s with
  | nil => simp
  | cons c cs ih =>
      rw [List.foldl_cons, ih]
      simp only [Finset.mem_erase, List.mem_cons]
      tauto

theorem mem_foldl_insert (l : List Coord) (s : Finset Coord) (x : Coord) :
    x ∈ l.foldl (fun s c => insert c s) s ↔ x ∈ s ∨ x ∈ l := by
  induction l generalizing s with
  | nil => simp
  | cons c cs ih =>
      rw [List.foldl_cons, ih]
      simp only [Finset.mem_insert, List.mem_cons]
      tauto

theorem card_foldl_erase (l : List Coord) (s : Finset Coord) (hn : l.Nodup)
    (hs : ∀ x ∈ l, x ∈ s) :
    (l.foldl (fun s c => s.erase c) s).card + l.length = s.card := by
  induction l generalizing s with
  | nil => simp
  | cons c cs ih =>
      rw [List.nodup_cons] at hn
      rw [List.foldl_cons, List.length_cons, ← Nat.add_assoc,
        ih (s.erase c) hn.2 (fun x hx => Finset.mem_erase.mpr
          ⟨fun he => hn.1 (he ▸ hx), hs x (List.mem_cons_of_mem c hx)⟩)]
      exact Finset.card_erase_add_one (hs c (List.mem_cons_self c cs))

theorem card_foldl_insert (l : List Coord) (s : Finset Coord) (hn : l.Nodup)
    (hs : ∀ x ∈ l, x ∉ s) :
    (l.foldl (fun s c => insert c s) s).card = s.card + l.length := by
  induction l generalizing s with
  | nil => simp
  | cons c cs ih =>
      rw [List.nodup_cons] at hn
      rw [List.foldl_cons, List.length_cons,
        ih (insert c s) hn.2 (fun x hx => by
          rw [Finset.mem_insert]
          push_neg
          exact ⟨fun he => hn.1 (he ▸ hx), hs x (List.mem_cons_of_mem c hx)⟩),
        Finset.card_insert_of_not_mem (hs c (List.mem_cons_self c cs))]
      omega

/- ### XOR fold lemmas -/

/-- XOR of `f` over a list (the accumulator form the source's hash update
loops use, started at 0). -/
def xorL (f : Coord → Nat) (l : List Coord) : Nat :=
  l.foldl (fun h c => h ^^^ f c) 0

theorem foldl_xor_shift (f : Coord → Nat) (l : List Coord) (a : Nat) :
    l.foldl (fun h c => h ^^^ f c) a = a ^^^ xorL f l := by
  induction l generalizing a with
  | nil => simp [xorL]
  | cons c cs ih =>
      rw [xorL, List.foldl_cons, List.foldl_cons, ih, ih (0 ^^^ f c)]
      simp [Nat.xor_assoc]

theorem xorL_cons (f : Coord → Nat) (c : Coord) (l : List Coord) :
    xorL f (c :: l) = f c ^^^ xorL f l := by
  rw [xorL, List.foldl_cons, foldl_xor_shift]
  simp

theorem xor_left_comm (a b c : Nat) : a ^^^ (b ^^^ c) = b ^^^ (a ^^^ c) := by
  rw [← Nat.xor_assoc, Nat.xor_comm a b, Nat.xor_assoc]

theorem xorL_append (f : Coord → Nat) (l₁ l₂ : List Coord) :
    xorL f (l₁ ++ l₂) = xorL f l₁ ^^^ xorL f l₂ := by
  simp only [xorL, List.foldl_append]
  rw [foldl_xor_shift]
  rfl

theorem xorL_perm (f : Coord → Nat) {l₁ l₂ : List Coord} (p : l₁.Perm l₂) :
    xorL f l₁ = xorL f l₂ :=
  p.foldl_eq' (fun x _ y _ z => by
    rw [Nat.xor_assoc, Nat.xor_assoc, Nat.xor_comm (f x) (f y)]) 0

/-- XOR of `f` over the elements of a piece set. -/
def xorS (f : Coord → Nat) (s : Finset Coord) : Nat := xorL f (iterList s)

theorem xorS_insert (f : Coord → Nat) {s : Finset Coord} {a : Coord}
    (h : a ∉ s) : xorS f (insert a s) = f a ^^^ xorS f s := by
  have hperm : (iterList (insert a s)).Perm (a :: iterList s) := by
    refine (List.perm_ext_iff_of_nodup (nodup_iterList _) ?_).mpr ?_
    · rw [List.nodup_cons]
      exact ⟨fun hm => h (mem_iterList.mp hm), nodup_iterList _⟩
    · intro x
      simp [mem_iterList, List.mem_cons, Finset.mem_insert]
  rw [xorS, xorL_perm f hperm, xorL_cons, xorS]

theorem xorS_erase (f : Coord → Nat) {s : Finset Coord} {a : Coord}
    (h : a ∈ s) : xorS f s = f a ^^^ xorS f (s.erase a) := by
  conv_lhs => rw [← Finset.insert_erase h]
  exact xorS_insert f (Finset.not_mem_erase a s)

theorem xorS_foldl_erase (l : List Coord) (s : Finset Coord) (f : Coord → Nat)
    (hn : l.Nodup) (hs : ∀ x ∈ l, x ∈ s) :
    xorS f (l.foldl (fun s c => s.erase c) s) = xorS f s ^^^ xorL f l := by
  induction l generalizing s with
  | nil => simp [xorL]
  | cons c cs ih =>
      rw [List.nodup_cons] at hn
      rw [List.foldl_cons, ih (s.erase c) hn.2 (fun x hx => Finset.mem_erase.mpr
        ⟨fun he => hn.1 (he ▸ hx), hs x (List.mem_cons_of_mem c hx)⟩)]
      rw [xorS_erase f (hs c (List.mem_cons_self c cs)), xorL_cons]
      simp [Nat.xor_assoc, Nat.xor_comm, xor_left_comm, Nat.xor_self,
        Nat.xor_zero, Nat.zero_xor, Nat.xor_cancel_left]

theorem xorS_foldl_insert (l : List Coord) (s : Finset Coord) (f : Coord → Nat)
    (hn : l.Nodup) (hs : ∀ x ∈ l, x ∉ s) :
    xorS f (l.foldl (fun s c => insert c s) s) = xorS f s ^^^ xorL f l := by
  induction l generalizing s with
  | nil => simp [xorL]
  | cons c cs ih =>
      rw [List.nodup_cons] at hn
      rw [List.foldl_cons, ih (insert c s) hn.2 (fun x hx => by
        rw [Finset.mem_insert]
        push_neg
        exact ⟨fun he => hn.1 (he ▸ hx), hs x (List.mem_cons_of_mem c hx)⟩)]
      rw [xorS_insert f (hs c (List.mem_cons_self c cs)), xorL_cons]
      simp [Nat.xor_assoc, Nat.xor_comm, xor_left_comm, Nat.xor_self,
        Nat.xor_zero, Nat.zero_xor, Nat.xor_cancel_left]

/- ### Capture/conversion list facts and `valid_move` facts -/

theorem capturable_mem_opp {b : Board} {color : Color} {active dest x : Coord}
    (h : x ∈ b.capturableAround color active dest) :
    x ∈ b.piecesOf color.opponent := by
  rw [Board.capturableAround, List.mem_filter] at h
  have h2 := h.2
  simp only [Bool.and_eq_true, decide_eq_true_eq] at h2
  exact h2.1

theorem convertible_mem_opp {b : Board} {color : Color} {active dest x : Coord}
    (h : x ∈ b.convertibleAround color active dest) :
    x ∈ b.piecesOf color.opponent := by
  rw [Board.convertibleAround, List.mem_filter] at h
  have h2 := h.2
  simp only [Bool.and_eq_true, decide_eq_true_eq] at h2
  exact h2.1.1.2

theorem neighborhood_nodup (b : Board) (c : Coord) :
    (b.neighborhood c).Nodup := by
  rw [Board.neighborhood]
  refine List.Nodup.filter _ (List.Nodup.map ?_ (by decide))
  intro d₁ d₂ h
  have h1 := congrArg Prod.fst h
  have h2 := congrArg Prod.snd h
  simp only at h1 h2
  exact Prod.ext (by omega) (by omega)

theorem capturable_nodup (b : Board) (color : Color) (active dest : Coord) :
    (b.capturableAround color active dest).Nodup :=
  List.Nodup.filter _ (neighborhood_nodup b dest)

theorem convertible_nodup (b : Board) (color : Color) (active dest : Coord) :
    (b.convertibleAround color active dest).Nodup :=
  List.Nodup.filter _ (neighborhood_nodup b dest)

theorem validMove_movement_facts {b : Board} {color : Color}
    {active pivot : Coord} {conversions : List Coord}
    (h : b.validMove (.Movement color active pivot conversions) = some none) :
    active ∈ b.piecesOf color ∧ pivot ∈ b.piecesOf color ∧
      Move.dest (.Movement color active pivot conversions) ∉ b.allPieces := by
  rw [Board.validMove] at h
  rw [piecesOf_ite] at h
  by_cases h1 : active ∉ b.piecesOf color
  · rw [if_pos h1] at h
    exact absurd h (by simp)
  · rw [if_neg h1] at h
    by_cases h2 : pivot ∉ b.piecesOf color
    · rw [if_pos h2] at h
      exact absurd h (by simp)
    · rw [if_neg h2] at h
      by_cases h3 :
          Move.dest (.Movement color active pivot conversions) ∈ b.allPieces
      · rw [if_pos h3] at h
        exact absurd h (by simp)
      · exact ⟨not_not.mp h1, not_not.mp h2, h3⟩

theorem not_mem_allPieces {b : Board} {x : Coord} (h : x ∉ b.allPieces) :
    x ∉ b.white ∧ x ∉ b.black := by
  rw [Board.allPieces, Finset.mem_union] at h
  push_neg at h
  exact h

/- ### Closed forms for `move_delta` -/

/-- The convertible squares that the move actually flips (those named in the
move's conversion list), in convertible order. -/
def Board.chosenList (b : Board) (color : Color) (active dest : Coord)
    (conversions : List Coord) : List Coord :=
  (b.convertibleAround color active dest).filter
    (fun oc => decide (oc ∈ conversions))

/-- The capturable squares that are not also convertible (captured
outright), in capturable order. -/
def Board.capsNCList (b : Board) (color : Color) (active dest : Coord) :
    List Coord :=
  (b.capturableAround color active dest).filter
    (fun oc => decide (oc ∉ b.convertibleAround color active dest))

theorem capFold_black (convs : List Coord) (l : List Coord) :
    ∀ d : MoveDelta,
      l.foldl (fun d oc => if oc ∈ convs then d
        else (d.pushMinus Black oc).addReserve Black 1) d =
      { d with
        black_minus := d.black_minus ++ l.filter (fun oc => decide (oc ∉ convs)),
        black_reserve := d.black_reserve +
          ((l.filter (fun oc => decide (oc ∉ convs))).length : Int) } := by
  induction l with
  | nil => intro d; simp
  | cons c cs ih =>
      intro d
      rw [List.foldl_cons]
      by_cases hc : c ∈ convs
      · rw [if_pos hc, ih]
        simp [List.filter_cons, hc]
      · rw [if_neg hc, ih]
        simp [MoveDelta.pushMinus, MoveDelta.addReserve, List.filter_cons, hc]
        ring_nf

theorem capFold_white (convs : List Coord) (l : List Coord) :
    ∀ d : MoveDelta,
      l.foldl (fun d oc => if oc ∈ convs then d
        else (d.pushMinus White oc).addReserve White 1) d =
      { d with
        white_minus := d.white_minus ++ l.filter (fun oc => decide (oc ∉ convs)),
        white_reserve := d.white_reserve +
          ((l.filter (fun oc => decide (oc ∉ convs))).length : Int) } := by
  induction l with
  | nil => intro d; simp
  | cons c cs ih =>
      intro d
      rw [List.foldl_cons]
      by_cases hc : c ∈ convs
      · rw [if_pos hc, ih]
        simp [List.filter_cons, hc]
      · rw [if_neg hc, ih]
        simp [MoveDelta.pushMinus, MoveDelta.addReserve, List.filter_cons, hc]
        ring_nf

theorem convFold_white (conversions : List Coord) (l : List Coord) :
    ∀ d : MoveDelta,
      l.foldl (fun d oc =>
        let d := (d.pushMinus Black oc).addReserve Black 1
        if oc ∈ conversions then (d.pushPlus White oc).addReserve White (-1)
        else d) d =
      { d with
        black_minus := d.black_minus ++ l,
        black_reserve := d.black_reserve + (l.length : Int),
        white_plus := d.white_plus ++
          l.filter (fun oc => decide (oc ∈ conversions)),
        white_reserve := d.white_reserve -
          ((l.filter (fun oc => decide (oc ∈ conversions))).length : Int) } := by
  induction l with
  | nil => intro d; simp
  | cons c cs ih =>
      intro d
      rw [List.foldl_cons]
      by_cases hc : c ∈ conversions
      · simp only [hc, if_true, ih]
        simp [MoveDelta.pushMinus, MoveDelta.pushPlus, MoveDelta.addReserve,
          List.filter_cons, hc]
        constructor <;> ring_nf
      · simp only [hc, if_false, ih]
        simp [MoveDelta.pushMinus, MoveDelta.pushPlus, MoveDelta.addReserve,
          List.filter_cons, hc]
        ring_nf

theorem convFold_black (conversions : List Coord) (l : List Coord) :
    ∀ d : MoveDelta,
      l.foldl (fun d oc =>
        let d := (d.pushMinus White oc).addReserve White 1
        if oc ∈ conversions then (d.pushPlus Black oc).addReserve Black (-1)
        else d) d =
      { d with
        white_minus := d.white_minus ++ l,
        white_reserve := d.white_reserve + (l.length : Int),
        black_plus := d.black_plus ++
          l.filter (fun oc => decide (oc ∈ conversions)),
        black_reserve := d.black_reserve -
          ((l.filter (fun oc => decide (oc ∈ conversions))).length : Int) } := by
  induction l with
  | nil => intro d; simp
  | cons c cs ih =>
      intro d
      rw [List.foldl_cons]
      by_cases hc : c ∈ conversions
      · simp only [hc, if_true, ih]
        simp [MoveDelta.pushMinus, MoveDelta.pushPlus, MoveDelta.addReserve,
          List.filter_cons, hc]
        constructor <;> ring_nf
      · simp only [hc, if_false, ih]
        simp [MoveDelta.pushMinus, MoveDelta.pushPlus, MoveDelta.addReserve,
          List.filter_cons, hc]
        ring_nf

theorem moveDelta_movement_white (b : Board) (active pivot : Coord)
    (conversions : List Coord) (dest : Coord)
    (hdest : dest = Move.dest (.Movement White active pivot conversions)) :
    b.moveDelta (.Movement White active pivot conversions) =
      { white_minus := [active],
        white_plus := dest :: b.chosenList White active dest conversions,
        black_minus := b.capsNCList White active dest ++
          b.convertibleAround White active dest,
        black_plus := [],
        white_reserve :=
          -((b.chosenList White active dest conversions).length : Int),
        black_reserve := ((b.capsNCList White active dest).length : Int) +
          ((b.convertibleAround White active dest).length : Int) } := by
  subst hdest
  rw [Board.moveDelta]
  simp only [Color.opponent]
  rw [capFold_black, convFold_white]
  simp [MoveDelta.new, MoveDelta.pushPlus, MoveDelta.pushMinus,
    MoveDelta.addReserve, Board.chosenList, Board.capsNCList]

theorem moveDelta_movement_black (b : Board) (active pivot : Coord)
    (conversions : List Coord) (dest : Coord)
    (hdest : dest = Move.dest (.Movement Black active pivot conversions)) :
    b.moveDelta (.Movement Black active pivot conversions) =
      { black_minus := [active],
        black_plus := dest :: b.chosenList Black active dest conversions,
        white_minus := b.capsNCList Black active dest ++
          b.convertibleAround Black active dest,
        white_plus := [],
        black_reserve :=
          -((b.chosenList Black active dest conversions).length : Int),
        white_reserve := ((b.capsNCList Black active dest).length : Int) +
          ((b.convertibleAround Black active dest).length : Int) } := by
  subst hdest
  rw [Board.moveDelta]
  simp only [Color.opponent]
  rw [capFold_white, convFold_black]
  simp [MoveDelta.new, MoveDelta.pushPlus, MoveDelta.pushMinus,
    MoveDelta.addReserve, Board.chosenList, Board.capsNCList]

theorem moveDelta_placement (b : Board) (color : Color) (at' : Coord) :
    b.moveDelta (.Placement color at') =
      ((MoveDelta.new.pushPlus color at').addReserve color (-1)) := by
  rw [Board.moveDelta]

/-- `apply` on a legal move, with the resulting board spelled out. -/
theorem apply_eq {b : Board} {m : Move}
    (h : b.validMove m = some none) :
    b.apply m = some { b with
      zobrist_hash := b.applyToZobristHash (b.moveDelta m),
      white := (b.moveDelta m).white_plus.foldl (fun s c => insert c s)
        ((b.moveDelta m).white_minus.foldl (fun s c => s.erase c) b.white),
      black := (b.moveDelta m).black_plus.foldl (fun s c => insert c s)
        ((b.moveDelta m).black_minus.foldl (fun s c => s.erase c) b.black),
      white_reserve := b.white_reserve + (b.moveDelta m).white_reserve,
      black_reserve := b.black_reserve + (b.moveDelta m).black_reserve,
      whose_move := b.whose_move.opponent } := by
  rw [Board.apply, h]

/- ### Claim C4 -/

/-- The conserved quantity: pieces on the board plus pieces in reserve. -/
def totalCount (b : Board) : Int :=
  (b.white.card : Int) + (b.black.card : Int) + b.white_reserve + b.black_reserve

/-- The total reserve of both colors. -/
def totalReserve (b : Board) : Int := b.white_reserve + b.black_reserve

theorem validMove_placement_facts {b : Board} {color : Color} {at' : Coord}
    (h : b.validMove (.Placement color at') = some none) :
    at' ∉ b.allPieces ∧ 0 < b.reserveOf color := by
  rw [Board.validMove] at h
  by_cases h1 : at' ∈ b.allPieces
  · rw [if_pos h1] at h
    exact absurd h (by simp)
  · rw [if_neg h1] at h
    by_cases h2 : b.reserveOf color ≤ 0
    · rw [if_pos h2] at h
      exact absurd h (by simp)
    · exact ⟨h1, by omega⟩

theorem chosenList_subset_opp {b : Board} {color : Color} {active dest x : Coord}
    {conversions : List Coord}
    (h : x ∈ b.chosenList color active dest conversions) :
    x ∈ b.piecesOf color.opponent := by
  rw [Board.chosenList, List.mem_filter] at h
  exact convertible_mem_opp h.1

theorem capsNCList_subset_opp {b : Board} {color : Color} {active dest x : Coord}
    (h : x ∈ b.capsNCList color active dest) :
    x ∈ b.piecesOf color.opponent := by
  rw [Board.capsNCList, List.mem_filter] at h
  exact capturable_mem_opp h.1

theorem chosenList_nodup (b : Board) (color : Color) (active dest : Coord)
    (conversions : List Coord) :
    (b.chosenList color active dest conversions).Nodup :=
  List.Nodup.filter _ (convertible_nodup b color active dest)

theorem blackMinus_nodup (b : Board) (color : Color) (active dest : Coord) :
    (b.capsNCList color active dest ++
      b.convertibleAround color active dest).Nodup := by
  refine List.Nodup.append
    (List.Nodup.filter _ (capturable_nodup b color active dest))
    (convertible_nodup b color active dest) ?_
  intro x hx hx2
  rw [Board.capsNCList, List.mem_filter] at hx
  have := hx.2
  simp only [decide_eq_true_eq] at this
  exact this hx2

/-- C4: for every board (with disjoint color sets, the data-model invariant)
and every move accepted by `valid_move`, a Movement leaves
|white| + |black| + white_reserve + black_reserve unchanged, and a Placement
leaves it unchanged while reducing the total reserve by exactly one. -/
theorem claim_C4_conservation (b : Board) (m : Move)
    (hdisj : ∀ x, x ∈ b.white → x ∉ b.black)
    (hvalid : b.validMove m = some none)
    (b' : Board) (happly : b.apply m = some b') :
    ((∃ color active pivot conversions,
        m = .Movement color active pivot conversions) →
      totalCount b' = totalCount b) ∧
    ((∃ color at', m = .Placement color at') →
      totalCount b' = totalCount b ∧
        totalReserve b' = totalReserve b - 1) := by
  rw [apply_eq hvalid, Option.some_inj] at happly
  subst happly
  cases m with
  | Movement color active pivot conversions =>
      refine ⟨fun _ => ?_, fun hp => by
        obtain ⟨c, a, ha⟩ := hp
        exact absurd ha (by simp)⟩
      obtain ⟨hactive, -, hdestout⟩ := validMove_movement_facts hvalid
      obtain ⟨hdw, hdb⟩ := not_mem_allPieces hdestout
      cases color with
      | White =>
          rw [moveDelta_movement_white b active pivot conversions _ rfl]
          have hchsub : ∀ x ∈ b.chosenList White active
              (Move.dest (.Movement White active pivot conversions)) conversions,
              x ∈ b.black := fun x hx => chosenList_subset_opp hx
          have hbmsub : ∀ x ∈ b.capsNCList White active
              (Move.dest (.Movement White active pivot conversions)) ++
              b.convertibleAround White active
                (Move.dest (.Movement White active pivot conversions)),
              x ∈ b.black := by
            intro x hx
            rcases List.mem_append.mp hx with hx | hx
            · exact capsNCList_subset_opp hx
            · exact convertible_mem_opp hx
          have herase : ((([active] : List Coord)).foldl
              (fun s c => s.erase c) b.white).card + 1 = b.white.card := by
            have := card_foldl_erase [active] b.white (by simp)
              (by intro x hx; rw [List.mem_singleton] at hx; subst hx
                  exact hactive)
            simpa using this
          have hinsert := card_foldl_insert
            (Move.dest (.Movement White active pivot conversions) ::
              b.chosenList White active
                (Move.dest (.Movement White active pivot conversions))
                conversions)
            ((([active] : List Coord)).foldl (fun s c => s.erase c) b.white)
            (by
              rw [List.nodup_cons]
              exact ⟨fun hm => hdb (hchsub _ hm),
                chosenList_nodup b White active _ conversions⟩)
            (by
              intro x hx
              rw [mem_foldl_erase]
              push_neg
              intro hxw
              rcases List.mem_cons.mp hx with rfl | hx
              · exact absurd hxw hdw
              · exact absurd (hchsub _ hx) (hdisj x hxw))
          have hbcard := card_foldl_erase
            (b.capsNCList White active
              (Move.dest (.Movement White active pivot conversions)) ++
              b.convertibleAround White active
                (Move.dest (.Movement White active pivot conversions)))
            b.black (blackMinus_nodup b White active _) hbmsub
          simp only [totalCount, List.foldl_nil, List.length_cons,
            List.length_append] at *
          omega
      | Black =>
          rw [moveDelta_movement_black b active pivot conversions _ rfl]
          have hchsub : ∀ x ∈ b.chosenList Black active
              (Move.dest (.Movement Black active pivot conversions)) conversions,
              x ∈ b.white := fun x hx => chosenList_subset_opp hx
          have hwmsub : ∀ x ∈ b.capsNCList Black active
              (Move.dest (.Movement Black active pivot conversions)) ++
              b.convertibleAround Black active
                (Move.dest (.Movement Black active pivot conversions)),
              x ∈ b.white := by
            intro x hx
            rcases List.mem_append.mp hx with hx | hx
            · exact capsNCList_subset_opp hx
            · exact convertible_mem_opp hx
          have herase : ((([active] : List Coord)).foldl
              (fun s c => s.erase c) b.black).card + 1 = b.black.card := by
            have := card_foldl_erase [active] b.black (by simp)
              (by intro x hx; rw [List.mem_singleton] at hx; subst hx
                  exact hactive)
            simpa using this
          have hinsert := card_foldl_insert
            (Move.dest (.Movement Black active pivot conversions) ::
              b.chosenList Black active
                (Move.dest (.Movement Black active pivot conversions))
                conversions)
            ((([active] : List Coord)).foldl (fun s c => s.erase c) b.black)
            (by
              rw [List.nodup_cons]
              exact ⟨fun hm => hdw (hchsub _ hm),
                chosenList_nodup b Black active _ conversions⟩)
            (by
              intro x hx
              rw [mem_foldl_erase]
              push_neg
              intro hxb
              rcases List.mem_cons.mp hx with rfl | hx
              · exact absurd hxb hdb
              · exact absurd hxb fun hxb2 => hdisj x (hchsub _ hx) hxb2)
          have hwcard := card_foldl_erase
            (b.capsNCList Black active
              (Move.dest (.Movement Black active pivot conversions)) ++
              b.convertibleAround Black active
                (Move.dest (.Movement Black active pivot conversions)))
            b.white (blackMinus_nodup b Black active _) hwmsub
          simp only [totalCount, List.foldl_nil, List.length_cons,
            List.length_append] at *
          omega
  | Placement color at' =>
      refine ⟨fun hm => by
        obtain ⟨c, a, p, cv, ha⟩ := hm
        exact absurd ha (by simp), fun _ => ?_⟩
      obtain ⟨hout, -⟩ := validMove_placement_facts hvalid
      obtain ⟨hw, hb⟩ := not_mem_allPieces hout
      rw [moveDelta_placement]
      cases color with
      | White =>
          simp only [MoveDelta.new, MoveDelta.pushPlus, MoveDelta.addReserve]
          have hcard : (([at'] : List Coord).foldl
              (fun s c => insert c s) b.white).card = b.white.card + 1 := by
            have := card_foldl_insert [at'] b.white (by simp)
              (by intro x hx; rw [List.mem_singleton] at hx; subst hx; exact hw)
            simpa using this
          constructor
          · simp only [totalCount, List.foldl_nil, List.nil_append]
            omega
          · simp only [totalReserve]
            omega
      | Black =>
          simp only [MoveDelta.new, MoveDelta.pushPlus, MoveDelta.addReserve]
          have hcard : (([at'] : List Coord).foldl
              (fun s c => insert c s) b.black).card = b.black.card + 1 := by
            have := card_foldl_insert [at'] b.black (by simp)
              (by intro x hx; rw [List.mem_singleton] at hx; subst hx; exact hb)
            simpa using this
          constructor
          · simp only [totalCount, List.foldl_nil, List.nil_append]
            omega
          · simp only [totalReserve]
            omega

/-- The board `apply` produces from `c2Board` for the movement (0,0) over
(1,0). -/
def c4After : Board :=
  { board_size := 9, max_gap := 2,
    white := {((1 : Int), (0 : Int)), (2, 0)},
    black := {((4 : Int), (4 : Int))},
    white_reserve := 0, black_reserve := 0, whose_move := Color.Black,
    zobrist_hash := 55 }

/-- `c2Board` with one White reserve point. -/
def c4PlaceBoard : Board := { c2Board with white_reserve := 1 }

/-- The board `apply` produces from `c4PlaceBoard` for the White placement
at (5,5). -/
def c4PlaceAfter : Board :=
  { board_size := 9, max_gap := 2,
    white := {((0 : Int), (0 : Int)), (1, 0), (5, 5)},
    black := {((4 : Int), (4 : Int))},
    white_reserve := 0, black_reserve := 0, whose_move := Color.Black,
    zobrist_hash := 132 }

/-- C4 witness: the conservation theorem instantiated on a concrete movement
and a concrete placement. -/
theorem apply_c4After :
    c2Board.apply (.Movement Color.White (0, 0) (1, 0) []) = some c4After := by
  rw [apply_eq (by decide :
    c2Board.validMove (.Movement Color.White (0, 0) (1, 0) []) = some none),
    Option.some_inj]
  show Board.mk _ _ _ _ _ _ _ _ = Board.mk _ _ _ _ _ _ _ _
  rw [Board.mk.injEq]
  refine ⟨by decide, by decide, by decide, by decide, by decide, by decide,
    by decide, by decide⟩

theorem apply_c4PlaceAfter :
    c4PlaceBoard.apply (.Placement Color.White (5, 5)) = some c4PlaceAfter := by
  rw [apply_eq (by decide :
    c4PlaceBoard.validMove (.Placement Color.White (5, 5)) = some none),
    Option.some_inj]
  show Board.mk _ _ _ _ _ _ _ _ = Board.mk _ _ _ _ _ _ _ _
  rw [Board.mk.injEq]
  refine ⟨by decide, by decide, by decide, by decide, by decide, by decide,
    by decide, by decide⟩

theorem claim_C4_witness :
    totalCount c4After = totalCount c2Board ∧
    (totalCount c4PlaceAfter = totalCount c4PlaceBoard ∧
      totalReserve c4PlaceAfter = totalReserve c4PlaceBoard - 1) :=
  ⟨(claim_C4_conservation c2Board
        (.Movement Color.White (0, 0) (1, 0) []) (by decide) (by decide)
        c4After apply_c4After).1 ⟨Color.White, (0, 0), (1, 0), [], rfl⟩,
   (claim_C4_conservation c4PlaceBoard (.Placement Color.White (5, 5))
        (by decide) (by decide) c4PlaceAfter apply_c4PlaceAfter).2
      ⟨Color.White, (5, 5), rfl⟩⟩

/- ### Claim C1, amended -/

theorem xorL_nil (f : Coord → Nat) : xorL f [] = 0 := rfl

theorem specHash_eq (b : Board) :
    specHashFromScratch b =
      xorS (piece_hash White) b.white ^^^ xorS (piece_hash Black) b.black ^^^
        reserve_hash White b.white_reserve ^^^
        reserve_hash Black b.black_reserve ^^^ turn_hash b.whose_move := rfl

theorem applyToZobrist_eq (b : Board) (delta : MoveDelta) :
    b.applyToZobristHash delta =
      b.zobrist_hash ^^^ xorL (piece_hash White) delta.white_plus ^^^
        xorL (piece_hash White) delta.white_minus ^^^
        xorL (piece_hash Black) delta.black_plus ^^^
        xorL (piece_hash Black) delta.black_minus ^^^
        reserve_hash White b.white_reserve ^^^
        reserve_hash White (b.white_reserve + delta.white_reserve) ^^^
        reserve_hash Black b.black_reserve ^^^
        reserve_hash Black (b.black_reserve + delta.black_reserve) ^^^
        turn_hash b.whose_move ^^^ turn_hash b.whose_move.opponent := by
  simp only [Board.applyToZobristHash, foldl_xor_shift]

theorem xor_shuffle_mw (WS BS XP XM XB rw0 rw1 rb0 rb1 t0 t1 : Nat) :
    (WS ^^^ BS ^^^ rw0 ^^^ rb0 ^^^ t0) ^^^ XP ^^^ XM ^^^ XB ^^^ rw0 ^^^
        rw1 ^^^ rb0 ^^^ rb1 ^^^ t0 ^^^ t1 =
      (WS ^^^ XM ^^^ XP) ^^^ (BS ^^^ XB) ^^^ rw1 ^^^ rb1 ^^^ t1 := by
  simp [Nat.xor_assoc, Nat.xor_comm, xor_left_comm, Nat.xor_self,
    Nat.xor_zero, Nat.zero_xor, Nat.xor_cancel_left]

theorem xor_shuffle_mb (WS BS WM BP BM rw0 rw1 rb0 rb1 t0 t1 : Nat) :
    (WS ^^^ BS ^^^ rw0 ^^^ rb0 ^^^ t0) ^^^ WM ^^^ BP ^^^ BM ^^^ rw0 ^^^
        rw1 ^^^ rb0 ^^^ rb1 ^^^ t0 ^^^ t1 =
      (WS ^^^ WM) ^^^ ((BS ^^^ BM) ^^^ BP) ^^^ rw1 ^^^ rb1 ^^^ t1 := by
  simp [Nat.xor_assoc, Nat.xor_comm, xor_left_comm, Nat.xor_self,
    Nat.xor_zero, Nat.zero_xor, Nat.xor_cancel_left]

theorem xor_shuffle_pw (WS BS XP rw0 rw1 rb0 t0 t1 : Nat) :
    (WS ^^^ BS ^^^ rw0 ^^^ rb0 ^^^ t0) ^^^ XP ^^^ rw0 ^^^ rw1 ^^^ rb0 ^^^
        rb0 ^^^ t0 ^^^ t1 =
      (WS ^^^ XP) ^^^ BS ^^^ rw1 ^^^ rb0 ^^^ t1 := by
  simp [Nat.xor_assoc, Nat.xor_comm, xor_left_comm, Nat.xor_self,
    Nat.xor_zero, Nat.zero_xor, Nat.xor_cancel_left]

theorem xor_shuffle_pb (WS BS BP rw0 rb0 rb1 t0 t1 : Nat) :
    (WS ^^^ BS ^^^ rw0 ^^^ rb0 ^^^ t0) ^^^ BP ^^^ rw0 ^^^ rw0 ^^^ rb0 ^^^
        rb1 ^^^ t0 ^^^ t1 =
      WS ^^^ (BS ^^^ BP) ^^^ rw0 ^^^ rb1 ^^^ t1 := by
  simp [Nat.xor_assoc, Nat.xor_comm, xor_left_comm, Nat.xor_self,
    Nat.xor_zero, Nat.zero_xor, Nat.xor_cancel_left]

/-- C1 amended: hash consistency is preserved, not established.  For every
board whose color sets are disjoint and whose `zobrist_hash` field already
equals the from-scratch hash of the position, applying any move that
`valid_move` accepts yields a board whose `zobrist_hash` again equals the
from-scratch hash of the resulting piece sets, reserves, and side to move.
(The precondition is forced by the counterexample: `from_position` sets the
hash field to 0, not to the from-scratch hash.) -/
theorem claim_C1_hash_consistency (b : Board) (m : Move)
    (hdisj : ∀ x, x ∈ b.white → x ∉ b.black)
    (hcons : b.zobrist_hash = specHashFromScratch b)
    (hvalid : b.validMove m = some none)
    (b' : Board) (happly : b.apply m = some b') :
    b'.zobrist_hash = specHashFromScratch b' := by
  rw [apply_eq hvalid, Option.some_inj] at happly
  subst happly
  rw [specHash_eq] at hcons
  cases m with
  | Movement color active pivot conversions =>
      obtain ⟨hactive, -, hdestout⟩ := validMove_movement_facts hvalid
      obtain ⟨hdw, hdb⟩ := not_mem_allPieces hdestout
      cases color with
      | White =>
          rw [moveDelta_movement_white b active pivot conversions _ rfl]
          have hchsub : ∀ x ∈ b.chosenList White active
              (Move.dest (.Movement White active pivot conversions)) conversions,
              x ∈ b.black := fun x hx => chosenList_subset_opp hx
          have hbmsub : ∀ x ∈ b.capsNCList White active
              (Move.dest (.Movement White active pivot conversions)) ++
              b.convertibleAround White active
                (Move.dest (.Movement White active pivot conversions)),
              x ∈ b.black := by
            intro x hx
            rcases List.mem_append.mp hx with hx | hx
            · exact capsNCList_subset_opp hx
            · exact convertible_mem_opp hx
          simp only [specHash_eq, applyToZobrist_eq, List.foldl_nil,
            xorL_nil, Nat.xor_zero]
          rw [xorS_foldl_insert _ _ _
              (by
                rw [List.nodup_cons]
                exact ⟨fun hm => hdb (hchsub _ hm),
                  chosenList_nodup b White active _ conversions⟩)
              (by
                intro x hx
                rw [mem_foldl_erase]
                push_neg
                intro hxw
                rcases List.mem_cons.mp hx with rfl | hx
                · exact absurd hxw hdw
                · exact absurd (hchsub _ hx) (hdisj x hxw)),
            xorS_foldl_erase _ _ _ (by simp)
              (by
                intro x hx
                rw [List.mem_singleton] at hx
                subst hx
                exact hactive),
            xorS_foldl_erase _ _ _ (blackMinus_nodup b White active _) hbmsub,
            hcons]
          exact xor_shuffle_mw _ _ _ _ _ _ _ _ _ _ _
      | Black =>
          rw [moveDelta_movement_black b active pivot conversions _ rfl]
          have hchsub : ∀ x ∈ b.chosenList Black active
              (Move.dest (.Movement Black active pivot conversions)) conversions,
              x ∈ b.white := fun x hx => chosenList_subset_opp hx
          have hwmsub : ∀ x ∈ b.capsNCList Black active
              (Move.dest (.Movement Black active pivot conversions)) ++
              b.convertibleAround Black active
                (Move.dest (.Movement Black active pivot conversions)),
              x ∈ b.white := by
            intro x hx
            rcases List.mem_append.mp hx with hx | hx
            · exact capsNCList_subset_opp hx
            · exact convertible_mem_opp hx
          simp only [specHash_eq, applyToZobrist_eq, List.foldl_nil,
            xorL_nil, Nat.xor_zero]
          rw [xorS_foldl_insert _ _ _
              (by
                rw [List.nodup_cons]
                exact ⟨fun hm => hdw (hchsub _ hm),
                  chosenList_nodup b Black active _ conversions⟩)
              (by
                intro x hx
                rw [mem_foldl_erase]
                push_neg
                intro hxb
                rcases List.mem_cons.mp hx with rfl | hx
                · exact absurd hxb hdb
                · exact absurd hxb fun hxb2 => hdisj x (hchsub _ hx) hxb2),
            xorS_foldl_erase [active] b.black _ (by simp)
              (by
                intro x hx
                rw [List.mem_singleton] at hx
                subst hx
                exact hactive),
            xorS_foldl_erase
              (b.capsNCList Black active
                (Move.dest (.Movement Black active pivot conversions)) ++
                b.convertibleAround Black active
                  (Move.dest (.Movement Black active pivot conversions)))
              b.white _ (blackMinus_nodup b Black active _) hwmsub,
            hcons]
          exact xor_shuffle_mb _ _ _ _ _ _ _ _ _ _ _
  | Placement color at' =>
      obtain ⟨hout, -⟩ := validMove_placement_facts hvalid
      obtain ⟨hw, hb⟩ := not_mem_allPieces hout
      rw [moveDelta_placement]
      cases color with
      | White =>
          simp only [MoveDelta.new, MoveDelta.pushPlus, MoveDelta.addReserve]
          simp only [specHash_eq, applyToZobrist_eq, List.nil_append,
            List.foldl_nil, xorL_nil, Nat.xor_zero, add_zero]
          rw [xorS_foldl_insert _ _ _ (by simp)
              (by
                intro x hx
                rw [List.mem_singleton] at hx
                subst hx
                exact hw),
            hcons]
          exact xor_shuffle_pw _ _ _ _ _ _ _ _
      | Black =>
          simp only [MoveDelta.new, MoveDelta.pushPlus, MoveDelta.addReserve]
          simp only [specHash_eq, applyToZobrist_eq, List.nil_append,
            List.foldl_nil, xorL_nil, Nat.xor_zero, add_zero]
          rw [xorS_foldl_insert _ _ _ (by simp)
              (by
                intro x hx
                rw [List.mem_singleton] at hx
                subst hx
                exact hb),
            hcons]
          exact xor_shuffle_pb _ _ _ _ _ _ _ _

/-- The board `apply` produces from `c1Board` for the movement (0,0) over
(1,0). -/
def c1After : Board :=
  { board_size := 9, max_gap := 2,
    white := {((1 : Int), (0 : Int)), (2, 0)},
    black := {((4 : Int), (4 : Int))},
    white_reserve := 0, black_reserve := 0, whose_move := Color.Black,
    zobrist_hash := 4098 }

theorem apply_c1After :
    c1Board.apply (.Movement Color.White (0, 0) (1, 0) []) = some c1After := by
  rw [apply_eq (by decide :
    c1Board.validMove (.Movement Color.White (0, 0) (1, 0) []) = some none),
    Option.some_inj]
  show Board.mk _ _ _ _ _ _ _ _ = Board.mk _ _ _ _ _ _ _ _
  rw [Board.mk.injEq]
  refine ⟨by decide, by decide, by decide, by decide, by decide, by decide,
    by decide, by decide⟩

/-- C1 witness: on the hash-consistent board `c1Board`, the applied board's
stored hash again equals its from-scratch hash. -/
theorem claim_C1_witness : c1After.zobrist_hash = specHashFromScratch c1After :=
  claim_C1_hash_consistency c1Board (.Movement Color.White (0, 0) (1, 0) [])
    (by decide) (by decide) (by decide) c1After apply_c1After

/- ### Claim C5: `max_by_key` / `min_by_key` tie-break structure -/

theorem le_maxByKeyLastGo (l : List (Move × Int)) (cur : Move × Int) :
    cur.2 ≤ (maxByKeyLastGo cur l).2 := by
  induction l generalizing cur with
  | nil => exact le_refl _
  | cons p ps ih =>
      rw [maxByKeyLastGo]
      by_cases h : cur.2 > p.2
      · rw [if_pos h]
        exact ih cur
      · rw [if_neg h]
        exact le_trans (by omega) (ih p)

theorem minByKeyFirstGo_le (l : List (Move × Int)) (cur : Move × Int) :
    (minByKeyFirstGo cur l).2 ≤ cur.2 := by
  induction l generalizing cur with
  | nil => exact le_refl _
  | cons p ps ih =>
      rw [minByKeyFirstGo]
      by_cases h : cur.2 > p.2
      · rw [if_pos h]
        exact le_trans (ih p) (by omega)
      · rw [if_neg h]
        exact ih cur

/-- Rust `max_by_key` picks the LAST maximal element: the input splits
around the result, every earlier element has key ≤ the result's, and every
later element has key strictly below it. -/
theorem maxByKeyLastGo_split (l : List (Move × Int)) (cur : Move × Int) :
    ∃ l1 l2, cur :: l = l1 ++ maxByKeyLastGo cur l :: l2 ∧
      (∀ q ∈ l1, q.2 ≤ (maxByKeyLastGo cur l).2) ∧
      (∀ q ∈ l2, q.2 < (maxByKeyLastGo cur l).2) := by
  induction l generalizing cur with
  | nil => exact ⟨[], [], rfl, by simp, by simp⟩
  | cons p ps ih =>
      rw [maxByKeyLastGo]
      by_cases h : cur.2 > p.2
      · rw [if_pos h]
        obtain ⟨l1, l2, heq, hle, hlt⟩ := ih cur
        cases l1 with
        | nil =>
            simp only [List.nil_append] at heq
            obtain ⟨hhead, htail⟩ := List.cons.inj heq
            refine ⟨[], p :: ps, ?_, by simp, ?_⟩
            · rw [List.nil_append, ← hhead]
            · intro q hq
              rcases List.mem_cons.mp hq with hq1 | hq2
              · rw [hq1, ← hhead]
                omega
              · exact hlt q (htail ▸ hq2)
        | cons c t =>
            rw [List.cons_append] at heq
            obtain ⟨hhead, htail⟩ := List.cons.inj heq
            refine ⟨cur :: p :: t, l2, ?_, ?_, hlt⟩
            · rw [List.cons_append, List.cons_append, ← htail]
            · intro q hq
              rcases List.mem_cons.mp hq with hq1 | hq2
              · rw [hq1]
                exact hle cur (by rw [hhead]; exact List.mem_cons_self c t)
              · rcases List.mem_cons.mp hq2 with hq3 | hq4
                · rw [hq3]
                  have := le_maxByKeyLastGo ps cur
                  omega
                · exact hle q (List.mem_cons_of_mem c hq4)
      · rw [if_neg h]
        obtain ⟨l1, l2, heq, hle, hlt⟩ := ih p
        refine ⟨cur :: l1, l2, ?_, ?_, hlt⟩
        · rw [List.cons_append, ← heq]
        · intro q hq
          rcases List.mem_cons.mp hq with hq1 | hq2
          · rw [hq1]
            have := le_maxByKeyLastGo ps p
            omega
          · exact hle q hq2

/-- Rust `min_by_key` picks the FIRST minimal element: every earlier element
has key strictly above the result's, every later element has key ≥ it. -/
theorem minByKeyFirstGo_split (l : List (Move × Int)) (cur : Move × Int) :
    ∃ l1 l2, cur :: l = l1 ++ minByKeyFirstGo cur l :: l2 ∧
      (∀ q ∈ l1, (minByKeyFirstGo cur l).2 < q.2) ∧
      (∀ q ∈ l2, (minByKeyFirstGo cur l).2 ≤ q.2) := by
  induction l generalizing cur with
  | nil => exact ⟨[], [], rfl, by simp, by simp⟩
  | cons p ps ih =>
      rw [minByKeyFirstGo]
      by_cases h : cur.2 > p.2
      · rw [if_pos h]
        obtain ⟨l1, l2, heq, hgt, hge⟩ := ih p
        refine ⟨cur :: l1, l2, ?_, ?_, hge⟩
        · rw [List.cons_append, ← heq]
        · intro q hq
          rcases List.mem_cons.mp hq with hq1 | hq2
          · rw [hq1]
            have := minByKeyFirstGo_le ps p
            omega
          · exact hgt q hq2
      · rw [if_neg h]
        obtain ⟨l1, l2, heq, hgt, hge⟩ := ih cur
        cases l1 with
        | nil =>
            simp only [List.nil_append] at heq
            obtain ⟨hhead, htail⟩ := List.cons.inj heq
            refine ⟨[], p :: ps, ?_, by simp, ?_⟩
            · rw [List.nil_append, ← hhead]
            · intro q hq
              rcases List.mem_cons.mp hq with hq1 | hq2
              · rw [hq1, ← hhead]
                omega
              · exact hge q (htail ▸ hq2)
        | cons c t =>
            rw [List.cons_append] at heq
            obtain ⟨hhead, htail⟩ := List.cons.inj heq
            refine ⟨cur :: p :: t, l2, ?_, ?_, hge⟩
            · rw [List.cons_append, List.cons_append, ← htail]
            · intro q hq
              rcases List.mem_cons.mp hq with hq1 | hq2
              · rw [hq1]
                exact hgt cur (by rw [hhead]; exact List.mem_cons_self c t)
              · rcases List.mem_cons.mp hq2 with hq3 | hq4
                · rw [hq3]
                  have hcur := hgt cur (by rw [hhead]; exact List.mem_cons_self c t)
                  omega
                · exact hgt q (List.mem_cons_of_mem c hq4)

/-- C5 amended: `best_move` returns a root move attaining the optimal
evaluation, but the tie-break differs by color: White's `max_by_key` keeps
the LAST maximal root move in enumeration order, while Black's `min_by_key`
keeps the FIRST minimal one. -/
theorem claim_C5_best_move_optimum (b : Board) (depth : Nat)
    (heuristic : Board → Int) (t : TranspositionTable) (hdepth : 1 ≤ depth)
    (ms : List Move) (hms : b.moves = some ms)
    (ps : List (Move × Int)) (t2 : TranspositionTable)
    (hkeys : evalKeysThread heuristic (depth - 1) b ms t = some (ps, t2)) :
    (ps = [] → best_move b depth heuristic t = some (none, t2)) ∧
    (b.whose_move = Color.White → ∀ p l, ps = p :: l →
      ∃ l1 l2 r, ps = l1 ++ r :: l2 ∧
        best_move b depth heuristic t = some (some r.1, t2) ∧
        (∀ q ∈ l1, q.2 ≤ r.2) ∧ (∀ q ∈ l2, q.2 < r.2)) ∧
    (b.whose_move = Color.Black → ∀ p l, ps = p :: l →
      ∃ l1 l2 r, ps = l1 ++ r :: l2 ∧
        best_move b depth heuristic t = some (some r.1, t2) ∧
        (∀ q ∈ l1, r.2 < q.2) ∧ (∀ q ∈ l2, r.2 ≤ q.2)) := by
  have hd1 : 1 ≤ depth := hdepth
  refine ⟨?_, ?_, ?_⟩
  · intro hnil
    subst hnil
    cases hcw : b.whose_move <;>
      simp [best_move, hms, hkeys, hcw, maxByKeyLast, minByKeyFirst]
  · intro hcw p l hps
    subst hps
    obtain ⟨l1, l2, heq, hle, hlt⟩ := maxByKeyLastGo_split l p
    refine ⟨l1, l2, maxByKeyLastGo p l, heq, ?_, hle, hlt⟩
    simp [best_move, hms, hkeys, hcw, maxByKeyLast]
  · intro hcw p l hps
    subst hps
    obtain ⟨l1, l2, heq, hgt, hge⟩ := minByKeyFirstGo_split l p
    refine ⟨l1, l2, minByKeyFirstGo p l, heq, ?_, hgt, hge⟩
    simp [best_move, hms, hkeys, hcw, minByKeyFirst]

/-- The first legal White move of `c5Board` in enumeration order. -/
def c5MoveA : Move := .Movement Color.White (0, 0) (0, 1) []

/-- The second legal White move of `c5Board` in enumeration order. -/
def c5MoveB : Move := .Movement Color.White (0, 0) (1, 0) []

/-- A 64-bucket cache value, large enough for the bucket indices that arise
in the C5 computations (the bucket count does not affect the tie-break
being demonstrated). -/
def c5SmallTable : TranspositionTable := ⟨List.replicate 64 []⟩

theorem c5_moves : c5Board.moves = some [c5MoveA, c5MoveB] := by decide

theorem c5_keys :
    evalKeysThread pieceCountHeuristic 0 c5Board [c5MoveA, c5MoveB]
      c5SmallTable = some ([(c5MoveA, 2), (c5MoveB, 2)], c5SmallTable) := by
  decide

/-- C5 counterexample: on `c5Board`, White has exactly two legal root moves
and both evaluate to the same value at depth 1, yet `best_move` returns the
SECOND (last) of them — `max_by_key` keeps the last maximum — contradicting
the claim that ties resolve to the first move in enumeration order for both
colors. -/
theorem claim_C5_counterexample :
    c5Board.moves = some [c5MoveA, c5MoveB] ∧
    c5MoveA ≠ c5MoveB ∧
    evalKeysThread pieceCountHeuristic 0 c5Board [c5MoveA, c5MoveB]
      c5SmallTable = some ([(c5MoveA, 2), (c5MoveB, 2)], c5SmallTable) ∧
    best_move c5Board 1 pieceCountHeuristic c5SmallTable =
      some (some c5MoveB, c5SmallTable) := by
  refine ⟨c5_moves, by decide, c5_keys, by decide⟩

/-- C5 witness: the amended theorem instantiated on `c5Board` at depth 1. -/
theorem claim_C5_witness :
    ∃ l1 l2 r,
      ([(c5MoveA, (2 : Int)), (c5MoveB, 2)] : List (Move × Int)) =
        l1 ++ r :: l2 ∧
      best_move c5Board 1 pieceCountHeuristic c5SmallTable =
        some (some r.1, c5SmallTable) ∧
      (∀ q ∈ l1, q.2 ≤ r.2) ∧ (∀ q ∈ l2, q.2 < r.2) :=
  (claim_C5_best_move_optimum c5Board 1 pieceCountHeuristic
    c5SmallTable (by decide) [c5MoveA, c5MoveB] c5_moves
    [(c5MoveA, 2), (c5MoveB, 2)] c5SmallTable c5_keys).2.1 rfl
    (c5MoveA, 2) [(c5MoveB, 2)] rfl

end Quorum
